import Mathlib

/-!
Verification development for the Deeptime-KG-Extractor extraction orchestrator.

The definitions below are shallow embeddings of the core subsystems:

* the streaming JSON-object scanner of `extractEntities` / `extractRelationships`
  (src/unnamed/part_006, lines 112-161 and 254-295): an append-only buffer is
  repeatedly scanned for a top-level '{'; a string-mode flag (toggled by a quote
  whose previous character is not a backslash) and a brace-depth counter delimit
  complete object spans;
* `simpleHash` and the cache-key construction of `handleStartExtraction`
  (src/App.tsx, lines 38-46 and 315-317);
* the batch scheduler `processBatch` (src/App.tsx, lines 216-248) as a small-step
  cooperative interleaving semantics over explicit worker states;
* the degradation workflow `handleExtractionWorkflow` (src/App.tsx, lines 250-292)
  as a transition function on the loop state, driven by per-round outcomes;
* the tail of `handleExtractRelationships` (src/App.tsx, lines 434-510).
-/

/-! ### Stream object scanner (src/unnamed/part_006, lines 117-160)

The inner loop walks the buffer from `startIndex + 1` carrying `inString` and
`braceCount` (initially 1, the opening brace having been consumed).  Each step
first toggles `inString` when the character is a quote whose previous buffer
character is not a backslash, then updates the depth on braces outside strings,
then stops when the depth has returned to zero outside a string. -/

structure ScanSt where
  inStr : Bool
  depth : Int
deriving DecidableEq, Repr

def scanStep (prev c : Char) (st : ScanSt) : ScanSt :=
  let inStr2 := if c = '"' ∧ prev ≠ '\\' then !st.inStr else st.inStr
  let depth2 := if inStr2 then st.depth
                else if c = '{' then st.depth + 1
                else if c = '}' then st.depth - 1
                else st.depth
  ⟨inStr2, depth2⟩

def firedB (st : ScanSt) : Bool := !st.inStr && st.depth == 0

/-- The search of lines 125-136: walk the characters after the opening brace,
returning the (absolute) index at which the object closes, if any. -/
def scanObj : List Char → Char → ScanSt → Nat → Option Nat
  | [], _, _, _ => none
  | c :: rest, prev, st, pos =>
    let st2 := scanStep prev c st
    if firedB st2 then some pos else scanObj rest c st2 (pos + 1)

/-- State after consuming a character sequence (same transition as `scanObj`,
without the early exit). -/
def scanFold : List Char → Char → ScanSt → ScanSt
  | [], _, st => st
  | c :: rest, prev, st => scanFold rest c (scanStep prev c st)

/-- The character playing the role of `buffer[i-1]` after consuming a sequence. -/
def lastCh : List Char → Char → Char
  | [], p => p
  | c :: rest, _ => lastCh rest c

/-- The scanner passes through the sequence without the stop condition firing. -/
def Skips : List Char → Char → ScanSt → Prop
  | [], _, _ => True
  | c :: rest, prev, st =>
    firedB (scanStep prev c st) = false ∧ Skips rest c (scanStep prev c st)

theorem scanFold_append (p q : List Char) (prev : Char) (st : ScanSt) :
    scanFold (p ++ q) prev st = scanFold q (lastCh p prev) (scanFold p prev st) := by
  induction p generalizing prev st with
  | nil => rfl
  | cons c rest ih => simp [scanFold, lastCh, ih]

theorem lastCh_append (p q : List Char) (prev : Char) :
    lastCh (p ++ q) prev = lastCh q (lastCh p prev) := by
  induction p generalizing prev with
  | nil => rfl
  | cons c rest ih => simp [lastCh, ih]

theorem Skips_append {p q : List Char} {prev : Char} {st : ScanSt}
    (hp : Skips p prev st) (hq : Skips q (lastCh p prev) (scanFold p prev st)) :
    Skips (p ++ q) prev st := by
  induction p generalizing prev st with
  | nil => simpa [scanFold, lastCh] using hq
  | cons c rest ih =>
    obtain ⟨h1, h2⟩ := hp
    exact ⟨h1, ih h2 (by simpa [scanFold, lastCh] using hq)⟩

theorem Skips_of_append_left {p q : List Char} {prev : Char} {st : ScanSt}
    (h : Skips (p ++ q) prev st) : Skips p prev st := by
  induction p generalizing prev st with
  | nil => trivial
  | cons c rest ih =>
    obtain ⟨h1, h2⟩ := h
    exact ⟨h1, ih h2⟩

theorem scanObj_skips_append {p : List Char} (q : List Char) {prev : Char} {st : ScanSt}
    (hp : Skips p prev st) (pos : Nat) :
    scanObj (p ++ q) prev st pos
      = scanObj q (lastCh p prev) (scanFold p prev st) (pos + p.length) := by
  induction p generalizing prev st pos with
  | nil => simp [scanFold, lastCh]
  | cons c rest ih =>
    obtain ⟨h1, h2⟩ := hp
    simp only [List.cons_append, scanObj, h1, if_false, Bool.false_eq_true,
      List.append_eq]
    rw [ih h2]
    simp only [scanFold, lastCh, List.length_cons]
    ring_nf

theorem scanObj_skips_none {p : List Char} {prev : Char} {st : ScanSt}
    (hp : Skips p prev st) (pos : Nat) : scanObj p prev st pos = none := by
  induction p generalizing prev st pos with
  | nil => rfl
  | cons c rest ih =>
    obtain ⟨h1, h2⟩ := hp
    simp [scanObj, h1, ih h2]

/-! ### JSON values and JSON.stringify

A model of JavaScript values as fed to `JSON.stringify` (insertion-ordered
object fields) together with the serialization itself.  Strings are escaped as
`JSON.stringify` escapes them for quote and backslash; values whose strings
contain no control characters serialize exactly as in JavaScript. -/

mutual
inductive JVal where
  | jstr (s : List Char) : JVal
  | jnum (n : Nat) : JVal
  | jtrue : JVal
  | jfalse : JVal
  | jnull : JVal
  | jarr (es : JArr) : JVal
  | jobj (fs : JObj) : JVal
inductive JArr where
  | anil : JArr
  | acons (v : JVal) (tl : JArr) : JArr
inductive JObj where
  | onil : JObj
  | ocons (k : List Char) (v : JVal) (tl : JObj) : JObj
end

def escChar (c : Char) : List Char :=
  if c = '"' then ['\\', '"'] else if c = '\\' then ['\\', '\\'] else [c]

def escSeq : List Char → List Char
  | [] => []
  | c :: cs => escChar c ++ escSeq cs

/-- Serialized form of a string literal: quote, escaped content, quote. -/
def serStr (s : List Char) : List Char := '"' :: escSeq s ++ ['"']

def digitCh : Nat → Char
  | 0 => '0' | 1 => '1' | 2 => '2' | 3 => '3' | 4 => '4'
  | 5 => '5' | 6 => '6' | 7 => '7' | 8 => '8' | _ => '9'

def natChars (n : Nat) : List Char :=
  if n < 10 then [digitCh n] else natChars (n / 10) ++ [digitCh (n % 10)]
decreasing_by exact Nat.div_lt_self (by omega) (by omega)

mutual
def serV : JVal → List Char
  | .jstr s => serStr s
  | .jnum n => natChars n
  | .jtrue => ['t', 'r', 'u', 'e']
  | .jfalse => ['f', 'a', 'l', 's', 'e']
  | .jnull => ['n', 'u', 'l', 'l']
  | .jarr .anil => ['[', ']']
  | .jarr (.acons v tl) => '[' :: (serV v ++ serA tl) ++ [']']
  | .jobj fs => '{' :: objInner fs ++ ['}']
def serA : JArr → List Char
  | .anil => []
  | .acons v tl => ',' :: serV v ++ serA tl
def objInner : JObj → List Char
  | .onil => []
  | .ocons k v tl => (serStr k ++ ':' :: serV v) ++ serO tl
def serO : JObj → List Char
  | .onil => []
  | .ocons k v tl => (',' :: serStr k ++ ':' :: serV v) ++ serO tl
end

/-- A string is scanner-good when it does not end in a backslash (the source's
escape test looks only one character back, so a closing quote after an escaped
backslash is misread as escaped). -/
def goodStr (s : List Char) : Bool := !(s.getLast? == some '\\')

mutual
def goodV : JVal → Bool
  | .jstr s => goodStr s
  | .jnum _ => true
  | .jtrue => true
  | .jfalse => true
  | .jnull => true
  | .jarr es => goodA es
  | .jobj fs => goodO fs
def goodA : JArr → Bool
  | .anil => true
  | .acons v tl => goodV v && goodA tl
def goodO : JObj → Bool
  | .onil => true
  | .ocons k v tl => goodStr k && goodV v && goodO tl
end

/-! ### Scanner behavior on serialized values -/

/-- Characters that neither toggle string mode nor change the brace depth. -/
def safeCh (c : Char) : Bool :=
  !(c == '"') && !(c == '\\') && !(c == '{') && !(c == '}')

theorem safeCh_spec {c : Char} (h : safeCh c = true) :
    c ≠ '"' ∧ c ≠ '\\' ∧ c ≠ '{' ∧ c ≠ '}' := by
  simp only [safeCh, Bool.and_eq_true, Bool.not_eq_true', beq_eq_false_iff_ne] at h
  exact ⟨h.1.1.1, h.1.1.2, h.1.2, h.2⟩

theorem scanStep_safe {c : Char} (h : safeCh c = true) (prev : Char) (st : ScanSt) :
    scanStep prev c st = st := by
  obtain ⟨h1, _, h3, h4⟩ := safeCh_spec h
  simp [scanStep, h1, h3, h4]

theorem scanFold_safe {l : List Char} (h : ∀ c ∈ l, safeCh c = true)
    (prev : Char) (st : ScanSt) : scanFold l prev st = st := by
  induction l generalizing prev with
  | nil => rfl
  | cons c rest ih =>
    rw [scanFold, scanStep_safe (h c (by simp)) prev st]
    exact ih (fun x hx => h x (by simp [hx])) c

theorem Skips_safe {l : List Char} (h : ∀ c ∈ l, safeCh c = true) (prev : Char)
    {st : ScanSt} (hf : firedB st = false) : Skips l prev st := by
  induction l generalizing prev with
  | nil => trivial
  | cons c rest ih =>
    rw [Skips, scanStep_safe (h c (by simp)) prev st]
    exact ⟨hf, ih (fun x hx => h x (by simp [hx])) c⟩

theorem lastCh_mem (l : List Char) (prev : Char) :
    lastCh l prev = prev ∨ lastCh l prev ∈ l := by
  induction l generalizing prev with
  | nil => exact Or.inl rfl
  | cons c rest ih =>
    rcases ih c with h | h
    · exact Or.inr (by simp [lastCh, h])
    · exact Or.inr (by simp [lastCh, h])

theorem firedB_false {st : ScanSt} (hs : st.inStr = false) (hd : st.depth ≠ 0) :
    firedB st = false := by
  simp only [firedB, hs, Bool.not_false, Bool.true_and]
  simpa using hd

theorem safeCh_digitCh (d : Nat) : safeCh (digitCh d) = true := by
  rcases d with _ | _ | _ | _ | _ | _ | _ | _ | _ | d <;> rfl

theorem natChars_safe (n : Nat) : ∀ c ∈ natChars n, safeCh c = true := by
  induction n using Nat.strong_induction_on with
  | _ n ih =>
    rw [natChars]
    by_cases h : n < 10
    · simp only [h, if_true, List.mem_singleton]
      rintro c rfl
      exact safeCh_digitCh n
    · simp only [h, if_false, List.mem_append, List.mem_singleton]
      rintro c (hc | rfl)
      · exact ih (n / 10) (Nat.div_lt_self (by omega) (by omega)) c hc
      · exact safeCh_digitCh (n % 10)

/-- Inside a string, no character of an escaped sequence toggles string mode:
every serialized quote is directly preceded by a backslash. -/
theorem escSeq_scan (s : List Char) (prev : Char) (d : Int) :
    scanFold (escSeq s) prev ⟨true, d⟩ = ⟨true, d⟩ ∧ Skips (escSeq s) prev ⟨true, d⟩ := by
  induction s generalizing prev with
  | nil => exact ⟨rfl, trivial⟩
  | cons c cs ih =>
    have hstep : ∀ p, scanFold (escChar c) p ⟨true, d⟩ = ⟨true, d⟩ ∧
        Skips (escChar c) p ⟨true, d⟩ := by
      intro p
      by_cases h1 : c = '"'
      · subst h1
        constructor
        · simp [escChar, scanFold, scanStep]
        · simp [escChar, Skips, scanStep, firedB]
      · by_cases h2 : c = '\\'
        · subst h2
          constructor
          · simp [escChar, scanFold, scanStep]
          · simp [escChar, Skips, scanStep, firedB]
        · have he : escChar c = [c] := by simp [escChar, h1, h2]
          constructor
          · simp [he, scanFold, scanStep, h1]
          · simp [he, Skips, scanStep, firedB, h1]
    rw [escSeq]
    constructor
    · rw [scanFold_append, (hstep prev).1]
      exact (ih (lastCh (escChar c) prev)).1
    · exact Skips_append (hstep prev).2
        (by rw [(hstep prev).1]; exact (ih (lastCh (escChar c) prev)).2)

/-- The final `buffer[i-1]` after the escaped content of a good string is not a
backslash (so the closing quote genuinely closes the string). -/
theorem lastCh_escSeq (s : List Char) (prev : Char) (hg : goodStr s = true)
    (h0 : s = [] → prev ≠ '\\') : lastCh (escSeq s) prev ≠ '\\' := by
  induction s generalizing prev with
  | nil => exact h0 rfl
  | cons c cs ih =>
    rw [escSeq, lastCh_append]
    rcases cs with _ | ⟨c2, cs2⟩
    · have hc : c ≠ '\\' := by simpa [goodStr] using hg
      by_cases h1 : c = '"'
      · subst h1
        have : lastCh (escChar '"') prev = '"' := rfl
        rw [escSeq, lastCh, this]
        decide
      · have he : escChar c = [c] := by simp [escChar, h1, hc]
        rw [he, escSeq, lastCh, lastCh, lastCh]
        exact hc
    · have hg2 : goodStr (c2 :: cs2) = true := by
        simpa [goodStr, List.getLast?] using hg
      exact ih (lastCh (escChar c) prev) hg2 (by simp)

/-- Scanning a complete serialized string from outside a string at nonzero depth
returns to the same state without firing, and ends on the closing quote. -/
theorem serStr_scan (s : List Char) (d : Int) (prev : Char) (hg : goodStr s = true)
    (hd : d ≠ 0) (hp : prev ≠ '\\') :
    scanFold (serStr s) prev ⟨false, d⟩ = ⟨false, d⟩ ∧
    Skips (serStr s) prev ⟨false, d⟩ ∧ lastCh (serStr s) prev = '"' := by
  have hopen : scanStep prev '"' ⟨false, d⟩ = ⟨true, d⟩ := by
    simp [scanStep, hp]
  have hq : lastCh (escSeq s) '"' ≠ '\\' := lastCh_escSeq s '"' hg (fun _ => by decide)
  have hclose : scanStep (lastCh (escSeq s) '"') '"' ⟨true, d⟩ = ⟨false, d⟩ := by
    simp [scanStep, hq]
  have hesc := escSeq_scan s '"' d
  refine ⟨?_, ?_, ?_⟩
  · rw [serStr]
    simp only [scanFold, List.append_eq, hopen, scanFold_append, hesc.1, hclose]
  · rw [serStr]
    simp only [Skips, hopen]
    refine ⟨by simp [firedB], ?_⟩
    refine Skips_append hesc.2 ?_
    rw [hesc.1]
    simp only [Skips, hclose]
    exact ⟨firedB_false rfl hd, trivial⟩
  · rw [serStr]
    simp only [lastCh, List.append_eq, lastCh_append]

/-- A segment the scanner passes through without firing, returning to the same
state, whose final `buffer[i-1]` is not a backslash. -/
def SegOk (l : List Char) (prev : Char) (st : ScanSt) : Prop :=
  scanFold l prev st = st ∧ Skips l prev st ∧ lastCh l prev ≠ '\\'

theorem seg_chain {p q : List Char} {prev : Char} {st : ScanSt}
    (hp : SegOk p prev st) (hq : SegOk q (lastCh p prev) st) : SegOk (p ++ q) prev st := by
  refine ⟨?_, ?_, ?_⟩
  · rw [scanFold_append, hp.1, hq.1]
  · exact Skips_append hp.2.1 (by rw [hp.1]; exact hq.2.1)
  · rw [lastCh_append]; exact hq.2.2

theorem atom_seg {l : List Char} (h : ∀ c ∈ l, safeCh c = true) (prev : Char) {st : ScanSt}
    (hs : st.inStr = false) (hd : st.depth ≠ 0) (hp : prev ≠ '\\') : SegOk l prev st := by
  refine ⟨scanFold_safe h prev st, Skips_safe h prev (firedB_false hs hd), ?_⟩
  rcases lastCh_mem l prev with hm | hm
  · rw [hm]; exact hp
  · exact (safeCh_spec (h _ hm)).2.1

theorem serStr_seg (s : List Char) (d : Int) (prev : Char) (hg : goodStr s = true)
    (hd : d ≠ 0) (hp : prev ≠ '\\') : SegOk (serStr s) prev ⟨false, d⟩ := by
  obtain ⟨h1, h2, h3⟩ := serStr_scan s d prev hg hd hp
  exact ⟨h1, h2, by rw [h3]; decide⟩

mutual
theorem serV_seg (v : JVal) (d : Int) (prev : Char) (hg : goodV v = true)
    (hd : 0 < d) (hp : prev ≠ '\\') : SegOk (serV v) prev ⟨false, d⟩ := by
  match v with
  | .jstr s => exact serStr_seg s d prev (by simpa [goodV] using hg) (by omega) hp
  | .jnum n => exact atom_seg (natChars_safe n) prev rfl (by simpa using (by omega : d ≠ 0)) hp
  | .jtrue => exact atom_seg (by decide) prev rfl (by simpa using (by omega : d ≠ 0)) hp
  | .jfalse => exact atom_seg (by decide) prev rfl (by simpa using (by omega : d ≠ 0)) hp
  | .jnull => exact atom_seg (by decide) prev rfl (by simpa using (by omega : d ≠ 0)) hp
  | .jarr .anil => exact atom_seg (by decide) prev rfl (by simpa using (by omega : d ≠ 0)) hp
  | .jarr (.acons v2 tl) =>
    have hg2 : goodV v2 = true ∧ goodA tl = true := by
      simpa [goodV, goodA, Bool.and_eq_true] using hg
    have s2 := serV_seg v2 d '[' hg2.1 hd (by decide)
    have s3 := serA_seg tl d (lastCh (serV v2) '[') hg2.2 hd s2.2.2
    have s23 := seg_chain s2 s3
    have s4 : SegOk [']'] (lastCh (serV v2 ++ serA tl) '[') ⟨false, d⟩ :=
      atom_seg (by decide) _ rfl (by simpa using (by omega : d ≠ 0)) s23.2.2
    have s1 : SegOk ['['] prev ⟨false, d⟩ :=
      atom_seg (by decide) prev rfl (by simpa using (by omega : d ≠ 0)) hp
    have := seg_chain s1 (seg_chain s23 s4)
    simpa [serV] using this
  | .jobj fs =>
    have hgo : goodO fs = true := by simpa [goodV] using hg
    have hob : scanStep prev '{' ⟨false, d⟩ = ⟨false, d + 1⟩ := by simp [scanStep]
    have hin := objInner_seg fs (d + 1) '{' hgo (by omega) (by decide)
    have hcb : scanStep (lastCh (objInner fs) '{') '}' ⟨false, d + 1⟩ = ⟨false, d⟩ := by
      simp [scanStep]
    refine ⟨?_, ?_, ?_⟩
    · show scanFold ('{' :: objInner fs ++ ['}']) prev ⟨false, d⟩ = ⟨false, d⟩
      simp only [scanFold, List.append_eq, hob, scanFold_append, hin.1, hcb]
    · show Skips ('{' :: objInner fs ++ ['}']) prev ⟨false, d⟩
      simp only [Skips, List.append_eq, hob]
      refine ⟨firedB_false rfl (by show d + 1 ≠ 0; omega), ?_⟩
      refine Skips_append hin.2.1 ?_
      rw [hin.1]
      simp only [Skips, hcb]
      exact ⟨firedB_false rfl (by show d ≠ 0; omega), trivial⟩
    · show lastCh ('{' :: objInner fs ++ ['}']) prev ≠ '\\'
      simp only [lastCh, List.append_eq, lastCh_append]
      decide

theorem serA_seg (es : JArr) (d : Int) (prev : Char) (hg : goodA es = true)
    (hd : 0 < d) (hp : prev ≠ '\\') : SegOk (serA es) prev ⟨false, d⟩ := by
  match es with
  | .anil => exact ⟨rfl, trivial, hp⟩
  | .acons v tl =>
    have hg2 : goodV v = true ∧ goodA tl = true := by
      simpa [goodA, Bool.and_eq_true] using hg
    have s1 : SegOk [','] prev ⟨false, d⟩ :=
      atom_seg (by decide) prev rfl (by simpa using (by omega : d ≠ 0)) hp
    have s2 := serV_seg v d ',' hg2.1 hd (by decide)
    have s3 := serA_seg tl d (lastCh (serV v) ',') hg2.2 hd s2.2.2
    have := seg_chain s1 (seg_chain s2 s3)
    simpa [serA] using this

theorem objInner_seg (fs : JObj) (d : Int) (prev : Char) (hg : goodO fs = true)
    (hd : 0 < d) (hp : prev ≠ '\\') : SegOk (objInner fs) prev ⟨false, d⟩ := by
  match fs with
  | .onil => exact ⟨rfl, trivial, hp⟩
  | .ocons k v tl =>
    have hg2 : goodStr k = true ∧ goodV v = true ∧ goodO tl = true := by
      simpa [goodO, Bool.and_eq_true, and_assoc] using hg
    have s1 := serStr_seg k d prev hg2.1 (by omega) hp
    have s2 : SegOk [':'] (lastCh (serStr k) prev) ⟨false, d⟩ :=
      atom_seg (by decide) _ rfl (by simpa using (by omega : d ≠ 0)) s1.2.2
    have s3 := serV_seg v d (lastCh [':'] (lastCh (serStr k) prev)) hg2.2.1 hd (by simp [lastCh])
    have s123 := seg_chain s1 (seg_chain s2 s3)
    have s4 := serO_seg tl d (lastCh (serStr k ++ ([':'] ++ serV v)) prev) hg2.2.2 hd s123.2.2
    have hfin := seg_chain s123 s4
    simpa [objInner, List.append_assoc] using hfin

theorem serO_seg (fs : JObj) (d : Int) (prev : Char) (hg : goodO fs = true)
    (hd : 0 < d) (hp : prev ≠ '\\') : SegOk (serO fs) prev ⟨false, d⟩ := by
  match fs with
  | .onil => exact ⟨rfl, trivial, hp⟩
  | .ocons k v tl =>
    have hg2 : goodStr k = true ∧ goodV v = true ∧ goodO tl = true := by
      simpa [goodO, Bool.and_eq_true, and_assoc] using hg
    have s0 : SegOk [','] prev ⟨false, d⟩ :=
      atom_seg (by decide) prev rfl (by simpa using (by omega : d ≠ 0)) hp
    have s1 := serStr_seg k d (lastCh [','] prev) hg2.1 (by omega) (by simp [lastCh])
    have s2 : SegOk [':'] (lastCh (serStr k) (lastCh [','] prev)) ⟨false, d⟩ :=
      atom_seg (by decide) _ rfl (by simpa using (by omega : d ≠ 0)) s1.2.2
    have s3 := serV_seg v d (lastCh [':'] (lastCh (serStr k) (lastCh [','] prev))) hg2.2.1 hd
      (by simp [lastCh])
    have s123 := seg_chain s0 (seg_chain s1 (seg_chain s2 s3))
    have s4 := serO_seg tl d (lastCh ([','] ++ (serStr k ++ ([':'] ++ serV v))) prev) hg2.2.2 hd
      s123.2.2
    have hfin := seg_chain s123 s4
    simpa [serO, List.append_assoc] using hfin
end

/-- Completing scan of a full serialized object: starting just after the opening
brace at depth 1, the scanner fires exactly on the matching closing brace. -/
theorem objFire (fs : JObj) (rest : List Char) (pos : Nat) (hg : goodO fs = true) :
    scanObj (objInner fs ++ '}' :: rest) '{' ⟨false, 1⟩ pos
      = some (pos + (objInner fs).length) := by
  have hin := objInner_seg fs 1 '{' hg (by omega) (by decide)
  rw [scanObj_skips_append _ hin.2.1 pos, hin.1]
  have hcb : scanStep (lastCh (objInner fs) '{') '}' ⟨false, 1⟩ = ⟨false, 0⟩ := by
    simp [scanStep]
  simp only [scanObj, hcb]
  rfl

/-- An incomplete object (a proper initial segment of a serialized object, with
the opening brace stripped) never fires. -/
theorem scanObj_incomplete (fs : JObj) (r2 t2 : List Char) (hg : goodO fs = true)
    (h : r2 ++ t2 = objInner fs) (pos : Nat) :
    scanObj r2 '{' ⟨false, 1⟩ pos = none := by
  have hin := objInner_seg fs 1 '{' hg (by omega) (by decide)
  have : Skips (r2 ++ t2) '{' (⟨false, 1⟩ : ScanSt) := by rw [h]; exact hin.2.1
  exact scanObj_skips_none (Skips_of_append_left this) pos

/-! ### The drain loop (the `while (true)` of lines 117-160 plus the final trim)

Between feeds the source keeps `buffer = buffer.substring(lastIndex)`; operating
on that suffix directly, one feed repeatedly finds the next '{', scans for the
matching close, emits the span and continues after it, stopping when no brace or
no complete object is found (the remaining suffix is retained). -/

def braceIdx : List Char → Option Nat
  | [] => none
  | c :: rest => if c = '{' then some 0 else (braceIdx rest).map (· + 1)

def drain (suf : List Char) : List (List Char) × List Char :=
  match hb : braceIdx suf with
  | none => ([], suf)
  | some k =>
    match scanObj (suf.drop (k + 1)) '{' ⟨false, 1⟩ 0 with
    | none => ([], suf)
    | some m =>
      have hne : suf ≠ [] := by
        intro h
        rw [h] at hb
        simp [braceIdx] at hb
      have : (suf.drop (k + 1 + (m + 1))).length < suf.length := by
        rw [List.length_drop]
        have : 0 < suf.length := List.length_pos.mpr hne
        omega
      (((suf.drop k).take (m + 2)) :: (drain (suf.drop (k + 1 + (m + 1)))).1,
        (drain (suf.drop (k + 1 + (m + 1)))).2)
termination_by suf.length

theorem drain_no_brace {suf : List Char} (h : braceIdx suf = none) :
    drain suf = ([], suf) := by
  rw [drain.eq_def]
  split
  · rfl
  · next k hb =>
    rw [h] at hb
    exact Option.noConfusion hb

theorem drain_no_end {suf : List Char} {k : Nat} (h : braceIdx suf = some k)
    (h2 : scanObj (suf.drop (k + 1)) '{' ⟨false, 1⟩ 0 = none) :
    drain suf = ([], suf) := by
  rw [drain.eq_def]
  split
  · rfl
  · next k2 hb =>
    rw [h] at hb
    injection hb with hk
    subst hk
    split
    · rfl
    · next m hm =>
      rw [h2] at hm
      exact Option.noConfusion hm

theorem drain_step {suf : List Char} {k m : Nat} (h : braceIdx suf = some k)
    (h2 : scanObj (suf.drop (k + 1)) '{' ⟨false, 1⟩ 0 = some m) :
    drain suf = (((suf.drop k).take (m + 2)) :: (drain (suf.drop (k + 1 + (m + 1)))).1,
      (drain (suf.drop (k + 1 + (m + 1)))).2) := by
  rw [drain.eq_def]
  split
  · next hb =>
    rw [h] at hb
    exact Option.noConfusion hb
  · next k2 hb =>
    rw [h] at hb
    injection hb with hk
    subst hk
    split
    · next hm =>
      rw [h2] at hm
      exact Option.noConfusion hm
    · next m2 hm =>
      rw [h2] at hm
      injection hm with hm2
      subst hm2
      rfl

/-- One `feed(chunk)` call per list element: append the chunk to the retained
buffer, drain complete objects, keep the rest for the next call. -/
def feedAll : List (List Char) → List Char → List (List Char) × List Char
  | [], buf => ([], buf)
  | c :: cs, buf =>
    ((drain (buf ++ c)).1 ++ (feedAll cs (drain (buf ++ c)).2).1,
      (feedAll cs (drain (buf ++ c)).2).2)

/-! ### Round-trip decomposition -/

theorem serVobj_shape (fs : JObj) : serV (.jobj fs) = '{' :: objInner fs ++ ['}'] := by
  rw [serV]

theorem length_serVobj (fs : JObj) :
    (serV (.jobj fs)).length = (objInner fs).length + 2 := by
  rw [serVobj_shape]
  simp

/-- From `a ++ b = c ++ d` with `a` no longer than `c`, `a` is an initial
segment of `c`. -/
theorem pre_of_append {α : Type} (a b c d2 : List α) (h : a ++ b = c ++ d2)
    (hl : a.length ≤ c.length) : ∃ t, a ++ t = c := by
  refine ⟨c.drop a.length, ?_⟩
  have h1 : a = (c ++ d2).take a.length := by
    rw [← h, List.take_left]
  rw [List.take_append_of_le_length hl] at h1
  have h2 : a ++ c.drop a.length = c.take a.length ++ c.drop a.length := by rw [← h1]
  rw [h2, List.take_append_drop]

/-- Concatenation of the serializations of a list of top-level objects. -/
def serObjs : List JObj → List Char
  | [] => []
  | fs :: tl => serV (.jobj fs) ++ serObjs tl

def goodObjs : List JObj → Bool
  | [] => true
  | fs :: tl => goodO fs && goodObjs tl

def objSpans (vs : List JObj) : List (List Char) :=
  vs.map (fun fs => serV (.jobj fs))

/-- The retained buffer between feeds: empty, or a proper initial segment of the
serialization of the (good) object currently being received. -/
def FragNext (r : List Char) : Prop :=
  r = [] ∨ ∃ fs t, goodO fs = true ∧ t ≠ [] ∧ r ++ t = serV (.jobj fs)

/-- Draining a buffer consisting of whole serialized objects followed by an
object fragment emits exactly the object spans, in order, and retains the
fragment. -/
theorem drain_decomp (vs : List JObj) (r : List Char) (hg : goodObjs vs = true)
    (hr : FragNext r) : drain (serObjs vs ++ r) = (objSpans vs, r) := by
  induction vs with
  | nil =>
    simp only [serObjs, List.nil_append]
    rcases hr with rfl | ⟨fs, t, hgf, htne, hrt⟩
    · exact drain_no_brace rfl
    · rcases r with _ | ⟨c, r2⟩
      · exact drain_no_brace rfl
      · rw [serVobj_shape] at hrt
        have hc : c = '{' := by
          have := congrArg (fun l => l.head?) hrt
          simpa using this
        subst hc
        have hr2 : r2 ++ t = objInner fs ++ ['}'] := by
          have := congrArg (fun l => l.tail) hrt
          simpa using this
        have hlen : r2.length ≤ (objInner fs).length := by
          have hl := congrArg List.length hr2
          simp at hl
          rcases t with _ | ⟨t0, t1⟩
          · exact absurd rfl htne
          · simp at hl
            omega
        obtain ⟨t2, ht2⟩ := pre_of_append r2 t (objInner fs) ['}']
          (by simpa [List.append_assoc] using hr2) hlen
        have hscan : scanObj (('{' :: r2).drop 1) '{' ⟨false, 1⟩ 0 = none :=
          scanObj_incomplete fs r2 t2 hgf ht2 0
        refine drain_no_end ?_ hscan
        simp [braceIdx]
  | cons fs tl ih =>
    have hg2 : goodO fs = true ∧ goodObjs tl = true := by
      simpa [goodObjs, Bool.and_eq_true] using hg
    have hshape : serObjs (fs :: tl) ++ r
        = '{' :: (objInner fs ++ '}' :: (serObjs tl ++ r)) := by
      rw [serObjs, serVobj_shape]
      simp
    rw [hshape]
    have hb : braceIdx ('{' :: (objInner fs ++ '}' :: (serObjs tl ++ r))) = some 0 := by
      simp [braceIdx]
    have hscan : scanObj (('{' :: (objInner fs ++ '}' :: (serObjs tl ++ r))).drop 1)
        '{' ⟨false, 1⟩ 0 = some (objInner fs).length := by
      have h0 := objFire fs (serObjs tl ++ r) 0 hg2.1
      rw [Nat.zero_add] at h0
      exact h0
    rw [drain_step hb hscan]
    have hrest : ('{' :: (objInner fs ++ '}' :: (serObjs tl ++ r))).drop
        (0 + 1 + ((objInner fs).length + 1)) = serObjs tl ++ r := by
      rw [show ('{' :: (objInner fs ++ '}' :: (serObjs tl ++ r)))
            = serV (.jobj fs) ++ (serObjs tl ++ r) by rw [serVobj_shape]; simp]
      rw [List.drop_left' (by rw [length_serVobj]; omega)]
    have hspan : (('{' :: (objInner fs ++ '}' :: (serObjs tl ++ r))).drop 0).take
        ((objInner fs).length + 2) = serV (.jobj fs) := by
      simp only [List.drop_zero]
      rw [show ('{' :: (objInner fs ++ '}' :: (serObjs tl ++ r)))
            = serV (.jobj fs) ++ (serObjs tl ++ r) by rw [serVobj_shape]; simp]
      rw [← length_serVobj, List.take_left]
    rw [hrest, hspan, ih hg2.2]
    rfl

/-- Two serialized objects sharing the same character stream coincide: the
scanner's stop position is unique, so one serialized object is never a proper
initial segment of another. -/
theorem serVobj_rigid (f1 f2 : JObj) (x y : List Char) (h1 : goodO f1 = true)
    (h2 : goodO f2 = true) (h : serV (.jobj f1) ++ x = serV (.jobj f2) ++ y) :
    serV (.jobj f1) = serV (.jobj f2) ∧ x = y := by
  rw [serVobj_shape, serVobj_shape] at h
  have hT : objInner f1 ++ '}' :: x = objInner f2 ++ '}' :: y := by
    have := h
    simp only [List.cons_append, List.append_assoc, List.singleton_append,
      List.cons.injEq] at this
    exact this.2
  have e1 := objFire f1 x 0 h1
  have e2 := objFire f2 y 0 h2
  rw [hT] at e1
  rw [e2] at e1
  have hlen : (objInner f2).length = (objInner f1).length := by
    injection e1 with e
    omega
  obtain ⟨hi, hxy⟩ := List.append_inj hT hlen.symm
  have hx : x = y := by injection hxy
  constructor
  · rw [serVobj_shape, serVobj_shape, hi]
  · exact hx

/-- Splitting a prefix of the object stream: any initial portion of
`serObjs vs ++ t` decomposes into whole leading objects plus a fragment. -/
theorem feed_split (vs : List JObj) (t u w : List Char) (hg : goodObjs vs = true)
    (ht : FragNext t) (h : u ++ w = serObjs vs ++ t) :
    ∃ vs1 vs2 r, vs = vs1 ++ vs2 ∧ goodObjs vs1 = true ∧ goodObjs vs2 = true ∧
      u = serObjs vs1 ++ r ∧ FragNext r ∧ r ++ w = serObjs vs2 ++ t := by
  induction vs generalizing u with
  | nil =>
    simp only [serObjs, List.nil_append] at h
    refine ⟨[], [], u, rfl, rfl, rfl, by simp [serObjs], ?_, by simpa [serObjs] using h⟩
    rcases ht with rfl | ⟨fs, t2, hgf, hne, heq⟩
    · left
      exact (List.append_eq_nil.mp h).1
    · by_cases hu : u = []
      · left; exact hu
      · right
        refine ⟨fs, w ++ t2, hgf, ?_, ?_⟩
        · intro hcon
          exact hne (List.append_eq_nil.mp hcon).2
        · rw [← List.append_assoc, h, heq]
  | cons fs tl ih =>
    have hg2 : goodO fs = true ∧ goodObjs tl = true := by
      simpa [goodObjs, Bool.and_eq_true] using hg
    have h' : u ++ w = serV (.jobj fs) ++ (serObjs tl ++ t) := by
      rw [h, serObjs, List.append_assoc]
    by_cases hl : (serV (.jobj fs)).length ≤ u.length
    · obtain ⟨u', hu'⟩ := pre_of_append (serV (.jobj fs)) (serObjs tl ++ t) u w h'.symm hl
      have hu'w : u' ++ w = serObjs tl ++ t := by
        have : (serV (.jobj fs) ++ u') ++ w = serV (.jobj fs) ++ (serObjs tl ++ t) := by
          rw [hu', h']
        rw [List.append_assoc] at this
        exact List.append_cancel_left this
      obtain ⟨vs1, vs2, r, hv, hgg1, hgg2, hu, hr, hrw⟩ := ih u' hg2.2 hu'w
      refine ⟨fs :: vs1, vs2, r, by rw [hv]; rfl, ?_, hgg2, ?_, hr, hrw⟩
      · simp [goodObjs, hg2.1, hgg1]
      · rw [← hu', hu, serObjs, List.append_assoc]
    · push_neg at hl
      obtain ⟨t2, ht2⟩ := pre_of_append u w (serV (.jobj fs)) (serObjs tl ++ t) h'
        (le_of_lt hl)
      refine ⟨[], fs :: tl, u, rfl, rfl, hg, by simp [serObjs], ?_, by rw [h]⟩
      by_cases hu : u = []
      · left; exact hu
      · right
        refine ⟨fs, t2, hg2.1, ?_, ht2⟩
        intro hnil
        rw [hnil, List.append_nil] at ht2
        rw [ht2] at hl
        omega

/-- Chunked feeding over a whole object stream: each feed emits exactly the
objects completed so far, and the final buffer is the final fragment. -/
theorem feedAll_decomp (chunks : List (List Char)) (vs : List JObj) (r t : List Char)
    (hg : goodObjs vs = true) (hr : FragNext r) (ht : FragNext t)
    (h : r ++ chunks.flatten = serObjs vs ++ t) :
    feedAll chunks r = (objSpans vs, t) := by
  induction chunks generalizing vs r with
  | nil =>
    simp only [List.flatten_nil, List.append_nil] at h
    rcases vs with _ | ⟨fs, tl⟩
    · simp only [serObjs, List.nil_append] at h
      subst h
      rfl
    · exfalso
      have hg2 : goodO fs = true ∧ goodObjs tl = true := by
        simpa [goodObjs, Bool.and_eq_true] using hg
      rcases hr with rfl | ⟨g, tg, hgg, hne, hrt⟩
      · have h2 : serObjs (fs :: tl) ++ t = [] := h.symm
        have h3 := (List.append_eq_nil.mp h2).1
        rw [serObjs] at h3
        have h4 := (List.append_eq_nil.mp h3).1
        rw [serVobj_shape] at h4
        exact List.noConfusion h4
      · have hbig : serV (.jobj fs) ++ ((serObjs tl ++ t) ++ tg) = serV (.jobj g) ++ [] := by
          rw [List.append_nil, ← hrt, h, serObjs]
          simp [List.append_assoc]
        obtain ⟨-, hemp⟩ := serVobj_rigid fs g ((serObjs tl ++ t) ++ tg) [] hg2.1 hgg hbig
        exact hne (List.append_eq_nil.mp hemp).2
  | cons c cs ih =>
    have hj : (r ++ c) ++ cs.flatten = serObjs vs ++ t := by
      rw [List.append_assoc, ← List.flatten_cons]
      exact h
    obtain ⟨vs1, vs2, r1, hv, hg1, hgg2, hu, hr1, hrw⟩ :=
      feed_split vs t (r ++ c) cs.flatten hg ht hj
    have hdrain : drain (r ++ c) = (objSpans vs1, r1) := by
      rw [hu]
      exact drain_decomp vs1 r1 hg1 hr1
    have hrec : feedAll cs r1 = (objSpans vs2, t) := ih vs2 r1 hgg2 hr1 hrw
    rw [feedAll, hdrain]
    simp only [hrec]
    rw [hv]
    simp [objSpans]

/-- The two concrete objects used to instantiate the round-trip theorem:
`ob1` serializes to the text of an object whose string value contains an
escaped quote, `ob2` to one holding a nested object. -/
def ob1 : JObj := .ocons ['a'] (.jstr ['x', '"', 'y']) .onil

def ob2 : JObj := .ocons ['b'] (.jobj (.ocons ['c'] .jtrue .onil)) .onil

/-- Claim C2 (amended): feeding the concatenated serializations of top-level
JSON objects to the stream extractor, in arbitrary chunks, emits exactly the
object spans in order with an empty final buffer — provided no string literal
(key or value) of any object ends in a backslash character. -/
theorem C2_stream_roundtrip (vs : List JObj) (chunks : List (List Char))
    (hg : goodObjs vs = true) (h : chunks.flatten = serObjs vs) :
    feedAll chunks [] = (objSpans vs, []) :=
  feedAll_decomp chunks vs [] [] hg (Or.inl rfl) (Or.inl rfl)
    (by rw [List.nil_append, h, List.append_nil])

/-- Witness for the round-trip: two objects (one with an escaped quote inside
a string, one with a nested object) split across three chunks, one boundary
inside the escape pair and one inside the nested object. -/
theorem C2_stream_roundtrip_witness :
    goodObjs [ob1, ob2] = true ∧
    [['{', '"', 'a', '"', ':', '"', 'x', '\\'],
     ['"', 'y', '"', '}', '{', '"', 'b', '"', ':', '{', '"', 'c'],
     ['"', ':', 't', 'r', 'u', 'e', '}', '}']].flatten = serObjs [ob1, ob2] ∧
    feedAll [['{', '"', 'a', '"', ':', '"', 'x', '\\'],
     ['"', 'y', '"', '}', '{', '"', 'b', '"', ':', '{', '"', 'c'],
     ['"', ':', 't', 'r', 'u', 'e', '}', '}']] [] = (objSpans [ob1, ob2], []) :=
  ⟨by decide, by decide, C2_stream_roundtrip [ob1, ob2] _ (by decide) (by decide)⟩

/-- Claim C2 counterexample: the single syntactically valid JSON object
`{"a":"\\"}` (a one-character string holding a backslash), fed as one chunk,
yields zero parsed objects — the closing quote follows the escaped backslash,
so the source's one-character look-behind treats it as escaped and the object
never completes.  The claim promises exactly one object. -/
theorem C2_counterexample :
    serV (.jobj (.ocons ['a'] (.jstr ['\\']) .onil)) =
      ['{', '"', 'a', '"', ':', '"', '\\', '\\', '"', '}'] ∧
    feedAll [['{', '"', 'a', '"', ':', '"', '\\', '\\', '"', '}']] [] =
      ([], ['{', '"', 'a', '"', ':', '"', '\\', '\\', '"', '}']) := by
  constructor
  · decide
  · have hd : drain (([] : List Char) ++ ['{', '"', 'a', '"', ':', '"', '\\', '\\', '"', '}'])
        = ([], ['{', '"', 'a', '"', ':', '"', '\\', '\\', '"', '}']) := by
      rw [List.nil_append]
      exact drain_no_end (k := 0) (by decide) (by decide)
    rw [feedAll, hd]
    simp [feedAll]

/-! ### Positional characterization of the scanner (claim C9) -/

/-- Scanner state after the first `n` characters of the buffer segment. -/
def scanPre (l : List Char) (prev : Char) (st : ScanSt) (n : Nat) : ScanSt :=
  scanFold (l.take n) prev st

/-- The `buffer[i-1]` character used by the scan at position `n` (the initial
previous character for `n = 0`). -/
def prevAt (l : List Char) (prev : Char) (n : Nat) : Char :=
  if n = 0 then prev else (l[n - 1]?).getD prev

/-- Number of consecutive backslashes immediately before position `n`. -/
def bsRun (l : List Char) (n : Nat) : Nat :=
  ((l.take n).reverse.takeWhile (fun c => c = '\\')).length

/-- A character position is escaped when an odd number of consecutive
backslashes immediately precedes it. -/
def escapedAt (l : List Char) (n : Nat) : Prop := bsRun l n % 2 = 1

theorem scanPre_cons (c : Char) (rest : List Char) (prev : Char) (st : ScanSt) (k : Nat) :
    scanPre (c :: rest) prev st (k + 1) = scanPre rest c (scanStep prev c st) k := by
  simp [scanPre, List.take, scanFold]

theorem prevAt_cons (c : Char) (rest : List Char) (prev : Char) (k : Nat)
    (h : k < rest.length) : prevAt (c :: rest) prev (k + 1) = prevAt rest c k := by
  rcases k with _ | j
  · simp [prevAt]
  · have h2 : j < rest.length := by omega
    have e1 : prevAt (c :: rest) prev (j + 1 + 1) = rest[j] := by
      simp [prevAt, List.getElem?_eq_getElem h2]
    have e2 : prevAt rest c (j + 1) = rest[j] := by
      simp [prevAt, List.getElem?_eq_getElem h2]
    rw [e1, e2]

theorem scanPre_succ (l : List Char) (prev : Char) (st : ScanSt) (n : Nat)
    (h : n < l.length) :
    scanPre l prev st (n + 1)
      = scanStep (prevAt l prev n) ((l[n]?).getD ' ') (scanPre l prev st n) := by
  induction l generalizing prev st n with
  | nil => simp at h
  | cons c rest ih =>
    rcases n with _ | k
    · simp [scanPre, prevAt, List.take, scanFold]
    · have hk : k < rest.length := by simpa using h
      rw [scanPre_cons, scanPre_cons, ih c (scanStep prev c st) k hk,
        prevAt_cons c rest prev k hk]
      simp

theorem scanStep_toggle {prev c : Char} {st : ScanSt}
    (h : (scanStep prev c st).inStr ≠ st.inStr) : c = '"' ∧ prev ≠ '\\' := by
  by_contra hc
  apply h
  simp [scanStep, hc]

theorem bsRun_eq_zero (l : List Char) (n : Nat) (h1 : 1 ≤ n) (h2 : n ≤ l.length)
    (h : l[n - 1]? ≠ some '\\') : bsRun l n = 0 := by
  have hm : n - 1 < l.length := by omega
  have hx : l[n - 1]? = some l[n - 1] := List.getElem?_eq_getElem hm
  have hne : l[n - 1] ≠ '\\' := by
    intro he
    exact h (by rw [hx, he])
  have htake : l.take n = l.take (n - 1) ++ [l[n - 1]] := by
    conv_lhs => rw [show n = (n - 1) + 1 by omega]
    rw [List.take_succ, hx]
    rfl
  have hrev : (l.take n).reverse = l[n - 1] :: (l.take (n - 1)).reverse := by
    rw [htake, List.reverse_append]
    simp
  rw [bsRun, hrev, List.takeWhile_cons_of_neg (by simp [hne])]
  rfl

theorem fired_iff (st : ScanSt) : firedB st = true ↔ st.inStr = false ∧ st.depth = 0 := by
  simp [firedB, Bool.and_eq_true, Bool.not_eq_true']

/-- Position and minimality content of a successful scan: the generalization of
the stop condition over an arbitrary starting state. -/
theorem scanObj_some_charac (l : List Char) (prev : Char) (st : ScanSt) (pos e : Nat)
    (h : scanObj l prev st pos = some e) :
    ∃ n, e = pos + n ∧ n < l.length ∧
      ((scanPre l prev st (n + 1)).inStr = false ∧ (scanPre l prev st (n + 1)).depth = 0) ∧
      ∀ j, j < n → ¬ ((scanPre l prev st (j + 1)).inStr = false ∧
        (scanPre l prev st (j + 1)).depth = 0) := by
  induction l generalizing prev st pos with
  | nil => exact absurd h (by simp [scanObj])
  | cons c rest ih =>
    rw [scanObj] at h
    by_cases hf : firedB (scanStep prev c st) = true
    · rw [if_pos hf] at h
      injection h with he
      refine ⟨0, he.symm, by simp, ?_, by omega⟩
      have := (fired_iff _).mp hf
      simpa [scanPre, List.take, scanFold] using this
    · rw [if_neg hf] at h
      obtain ⟨n', he, hlt, hfired, hmin⟩ := ih c (scanStep prev c st) (pos + 1) h
      refine ⟨n' + 1, by omega, by simpa using Nat.succ_lt_succ hlt, ?_, ?_⟩
      · rw [scanPre_cons]
        exact hfired
      · intro j hj
        rcases j with _ | j'
        · have := (fired_iff (scanStep prev c st)).not.mp (by simpa using hf)
          simpa [scanPre, List.take, scanFold] using this
        · rw [scanPre_cons]
          exact hmin j' (by omega)

/-- Claim C9: the scanner's string-mode flag is toggled only by unescaped
double quotes — a state change at position `n` implies the character is a
quote whose `buffer[i-1]` is not a backslash, hence (for `n ≥ 1`) a quote that
is not escaped; and a successful scan terminates only at the first position
where the brace-depth counter (incremented on an opening and decremented on a
closing brace outside strings) has returned to zero outside a string — so a
nested closing brace, which leaves the depth positive, never ends the span. -/
theorem C9_scanner_invariants :
    (∀ (l : List Char) (prev : Char) (st : ScanSt) (n : Nat), n < l.length →
        (scanPre l prev st (n + 1)).inStr ≠ (scanPre l prev st n).inStr →
        l[n]? = some '"' ∧ prevAt l prev n ≠ '\\' ∧ (1 ≤ n → ¬ escapedAt l n))
    ∧ (∀ (l : List Char) (prev : Char) (st : ScanSt) (pos e : Nat),
        scanObj l prev st pos = some e →
        ∃ n, e = pos + n ∧ n < l.length ∧
          ((scanPre l prev st (n + 1)).inStr = false ∧
            (scanPre l prev st (n + 1)).depth = 0) ∧
          ∀ j, j < n → ¬ ((scanPre l prev st (j + 1)).inStr = false ∧
            (scanPre l prev st (j + 1)).depth = 0)) := by
  constructor
  · intro l prev st n hlt htog
    rw [scanPre_succ l prev st n hlt] at htog
    obtain ⟨hq, hp⟩ := scanStep_toggle htog
    have hsome : l[n]? = some l[n] := List.getElem?_eq_getElem hlt
    have hq2 : l[n]? = some '"' := by
      rw [hsome]
      rw [hsome] at hq
      simpa using hq
    refine ⟨hq2, hp, ?_⟩
    intro h1 hesc
    have hlt2 : n - 1 < l.length := by omega
    have hsome2 : l[n - 1]? = some l[n - 1] := List.getElem?_eq_getElem hlt2
    have hpv : prevAt l prev n = l[n - 1] := by
      simp [prevAt, if_neg (by omega : ¬ n = 0), hsome2]
    have hrun : bsRun l n = 0 := by
      refine bsRun_eq_zero l n h1 (by omega) ?_
      rw [hsome2]
      intro hcon
      apply hp
      rw [hpv]
      injection hcon
    rw [escapedAt, hrun] at hesc
    simp at hesc
  · exact scanObj_some_charac

/-- Witness: a toggle on the unescaped quote of `a"` after `{`, and the scan of
`}` from depth one terminating at relative position zero with depth zero. -/
theorem C9_scanner_invariants_witness :
    (['a', '"', '}'][1]? = some '"' ∧ prevAt ['a', '"', '}'] '{' 1 ≠ '\\' ∧
      (1 ≤ 1 → ¬ escapedAt ['a', '"', '}'] 1))
    ∧ ∃ n, (5 : Nat) = 5 + n ∧ n < [('}' : Char)].length ∧
        ((scanPre ['}'] '{' ⟨false, 1⟩ (n + 1)).inStr = false ∧
          (scanPre ['}'] '{' ⟨false, 1⟩ (n + 1)).depth = 0) ∧
        ∀ j, j < n → ¬ ((scanPre ['}'] '{' ⟨false, 1⟩ (j + 1)).inStr = false ∧
          (scanPre ['}'] '{' ⟨false, 1⟩ (j + 1)).depth = 0) :=
  ⟨C9_scanner_invariants.1 ['a', '"', '}'] '{' ⟨false, 1⟩ 1 (by decide) (by decide),
   C9_scanner_invariants.2 ['}'] '{' ⟨false, 1⟩ 5 5 (by decide)⟩

/-! ### ContentHasher (src/App.tsx lines 38-46, 315-317)

`simpleHash` folds `hash = (hash << 5) - hash + charCode; hash |= 0` over the
string: the shift and the final `|= 0` wrap to a signed 32-bit integer, the
middle arithmetic is exact.  The cache key concatenates the text hash, the
hash of `JSON.stringify(schema)` (insertion order preserved), the model name
and the turbo-mode flag with dashes.  Character codes are the code points,
which agree with JavaScript's UTF-16 units on the basic plane. -/

def toInt32 (n : Int) : Int := (n + 2 ^ 31) % 2 ^ 32 - 2 ^ 31

def hashStep (h : Int) (c : Char) : Int := toInt32 (toInt32 (h * 32) - h + c.toNat)

def simpleHash (l : List Char) : Int := l.foldl hashStep 0

def cacheKey (text : List Char) (schema : JVal) (modelName : String) (turbo : Bool) : String :=
  toString (simpleHash text) ++ "-" ++ toString (simpleHash (serV schema)) ++ "-" ++
    modelName ++ "-" ++ (if turbo then "true" else "false")

/-- Lexicographic order on keys, used only to define the canonical form. -/
def keyLt : List Char → List Char → Bool
  | [], [] => false
  | [], _ :: _ => true
  | _ :: _, [] => false
  | a :: as, b :: bs => decide (a < b) || (decide (a = b) && keyLt as bs)

def insKV (k : List Char) (v : JVal) : JObj → JObj
  | .onil => .ocons k v .onil
  | .ocons k2 v2 tl =>
    if keyLt k k2 then .ocons k v (.ocons k2 v2 tl) else .ocons k2 v2 (insKV k v tl)

mutual
def canonV : JVal → JVal
  | .jobj fs => .jobj (canonO fs)
  | .jarr es => .jarr (canonA es)
  | .jstr s => .jstr s
  | .jnum n => .jnum n
  | .jtrue => .jtrue
  | .jfalse => .jfalse
  | .jnull => .jnull
def canonA : JArr → JArr
  | .anil => .anil
  | .acons v tl => .acons (canonV v) (canonA tl)
def canonO : JObj → JObj
  | .onil => .onil
  | .ocons k v tl => insKV k (canonV v) (canonO tl)
end

/-- Structural identity of schema snapshots irrespective of key-insertion
order: equality after recursively sorting every object's fields by key. -/
def structEquiv (v w : JVal) : Prop := canonV v = canonV w

set_option maxRecDepth 4000 in
/-- Claim C3 counterexample: the snapshots `a ↦ true, b ↦ false` and
`b ↦ false, a ↦ true` are structurally identical but differ in insertion
order; `JSON.stringify` preserves that order, `simpleHash` is order-sensitive,
and the cache keys differ for the same text, model and mode. -/
theorem C3_counterexample :
    structEquiv (.jobj (.ocons ['a'] .jtrue (.ocons ['b'] .jfalse .onil)))
      (.jobj (.ocons ['b'] .jfalse (.ocons ['a'] .jtrue .onil))) ∧
    simpleHash (serV (.jobj (.ocons ['a'] .jtrue (.ocons ['b'] .jfalse .onil)))) ≠
      simpleHash (serV (.jobj (.ocons ['b'] .jfalse (.ocons ['a'] .jtrue .onil)))) ∧
    cacheKey ['x'] (.jobj (.ocons ['a'] .jtrue (.ocons ['b'] .jfalse .onil))) "m" false ≠
      cacheKey ['x'] (.jobj (.ocons ['b'] .jfalse (.ocons ['a'] .jtrue .onil))) "m" false := by
  refine ⟨rfl, by decide, ?_⟩
  decide

/-- Claim C3 (amended): the fingerprint is a function of the serialized form —
snapshots with identical `JSON.stringify` output always receive identical
cache keys.  (Identity modulo key-insertion order is not guaranteed, per the
counterexample.) -/
theorem C3_key_depends_on_serialization (text : List Char) (s1 s2 : JVal)
    (modelName : String) (turbo : Bool) (h : serV s1 = serV s2) :
    cacheKey text s1 modelName turbo = cacheKey text s2 modelName turbo := by
  rw [cacheKey, cacheKey, h]

theorem C3_key_depends_on_serialization_witness :
    cacheKey ['x'] (.jobj (.ocons ['a'] .jtrue .onil)) "m" true
      = cacheKey ['x'] (.jobj (.ocons ['a'] .jtrue .onil)) "m" true :=
  C3_key_depends_on_serialization ['x'] _ _ "m" true rfl

/-! ### Substring matching (`String.prototype.includes`) -/

def startsSeq : List Char → List Char → Bool
  | [], _ => true
  | _ :: _, [] => false
  | p :: ps, c :: cs => p = c && startsSeq ps cs

def hasSeq (pat : List Char) : List Char → Bool
  | [] => startsSeq pat []
  | l@(_ :: cs) => startsSeq pat l || hasSeq pat cs

/-- `s.includes(pat)` on JavaScript strings. -/
def strIncludes (s pat : String) : Bool := hasSeq pat.toList s.toList

def strToLower (s : String) : String := String.mk (s.toList.map Char.toLower)

theorem startsSeq_refl (p q : List Char) : startsSeq p (p ++ q) = true := by
  induction p with
  | nil => rfl
  | cons c cs ih => simp [startsSeq, ih]

theorem hasSeq_of_startsSeq {pat l : List Char} (h : startsSeq pat l = true) :
    hasSeq pat l = true := by
  rcases l with _ | ⟨c, cs⟩
  · simpa [hasSeq] using h
  · simp [hasSeq, h]

theorem hasSeq_middle (pat x y : List Char) : hasSeq pat (x ++ pat ++ y) = true := by
  induction x with
  | nil =>
    rw [List.nil_append]
    exact hasSeq_of_startsSeq (startsSeq_refl pat y)
  | cons c cs ih =>
    have hsh : (c :: cs) ++ pat ++ y = c :: (cs ++ pat ++ y) := by simp
    rw [hsh, hasSeq, Bool.or_eq_true]
    right
    exact ih

/-- `strIncludes` finds a pattern embedded anywhere in the string. -/
theorem strIncludes_middle (x pat y : String) :
    strIncludes (x ++ pat ++ y) pat = true := by
  rw [strIncludes]
  have : (x ++ pat ++ y).toList = x.toList ++ pat.toList ++ y.toList := by
    simp [String.toList, String.data_append]
  rw [this]
  exact hasSeq_middle pat.toList x.toList y.toList

/-! ### Degradation workflow (src/App.tsx, `handleExtractionWorkflow`, lines 250-292)

The loop state carries the remaining items, the effective concurrency, the
accumulated error lines (`setError` appends a line per failure), the per-file
statuses (`updateFileStatus` rewrites matching entries) and the success flag.
Each loop iteration either observes the abort signal, or receives the outcome
of one `processBatch` round: success empties the queue; a failure is
classified by whether its message contains "429". -/

structure Item where
  name : String
deriving DecidableEq, Repr

structure FileStat where
  step : String
  message : String
deriving DecidableEq, Repr

/-- `updateFileStatus`: rewrite the status of files with a matching name. -/
def setStat (l : List (String × FileStat)) (n : String) (fs : FileStat) :
    List (String × FileStat) :=
  l.map fun p => if p.1 = n then (p.1, fs) else p

structure WFState where
  remaining : List Item
  conc : Nat
  errLog : List String
  stats : List (String × FileStat)
  success : Bool
  halted : Bool
deriving DecidableEq, Repr

inductive RoundOutcome where
  | ok : RoundOutcome
  | fail (failedItem : Item) (msg : String) : RoundOutcome
deriving DecidableEq, Repr

inductive WFEvent where
  | abortNow : WFEvent
  | round (o : RoundOutcome) : WFEvent
deriving DecidableEq, Repr

/-- `e.failedItem?.name || 'unknown'` (line 269): an empty name is falsy. -/
def failedName (i : Item) : String := if i.name = "" then "unknown" else i.name

def rateStopMsg (n : String) : String :=
  "Rate limit hit on file " ++ n ++ ". Even sequential processing failed. Stopping."

def seqSwitchMsg (k : Nat) : String :=
  "Rate limit hit. Switching to sequential processing for remaining " ++
    toString k ++ " files."

def genFailMsg (n msg : String) : String :=
  "Processing failed on file " ++ n ++ ": " ++ msg

def wfStep (st : WFState) (e : WFEvent) : WFState :=
  if st.halted ∨ st.remaining = [] then st
  else
    match e with
    | .abortNow => { st with success := false, halted := true }
    | .round .ok => { st with remaining := [] }
    | .round (.fail it msg) =>
      let fn := failedName it
      if strIncludes msg "429" then
        let rem2 := st.remaining.filter (· ≠ it)
        if st.conc = 1 then
          { st with errLog := st.errLog ++ [rateStopMsg fn],
                    stats := setStat st.stats fn ⟨"error", "Rate limited"⟩,
                    success := false, halted := true }
        else
          { st with conc := 1, remaining := rem2 ++ [it],
                    errLog := st.errLog ++ [seqSwitchMsg (rem2.length + 1)] }
      else
        { st with errLog := st.errLog ++ [genFailMsg fn msg],
                  stats := if fn ≠ "unknown" then setStat st.stats fn ⟨"error", msg⟩
                           else st.stats,
                  success := false, halted := true }

def wfRun (events : List WFEvent) (st : WFState) : WFState :=
  events.foldl wfStep st

/-! ### Worker pool (src/App.tsx, `processBatch`, lines 216-248)

Cooperative small-step semantics.  Each worker is either at its loop head,
suspended in `await taskFunction(...)`, done (queue empty or signal aborted),
or failed (its task rejected; the tagged error propagates and the worker stops
consuming).  A `run` action executes one loop-head block: check the queue,
check the signal, dequeue, pick the credential `keys[keyIndex % keys.length]`,
start the call.  A `resolve` action settles a suspended call; on success the
result is emitted only when the signal is not aborted.  An `abort` action sets
the (irreversible) signal.  The trace records every observable event. -/

inductive WStatus where
  | idle : WStatus
  | busy (item : Item) (key : Nat) : WStatus
  | done : WStatus
  | failed (item : Item) : WStatus
deriving DecidableEq, Repr

inductive BEvent where
  | deq (w : Nat) (item : Item) : BEvent
  | call (w : Nat) (item : Item) (key : Nat) : BEvent
  | emit (w : Nat) (item : Item) : BEvent
  | fail (w : Nat) (item : Item) : BEvent
  | abortSet : BEvent
deriving DecidableEq, Repr

structure BatchState where
  queue : List Item
  keyIndex : Nat
  aborted : Bool
  workers : List WStatus
  events : List BEvent
deriving DecidableEq, Repr

/-- `effectiveConcurrency` of line 256. -/
def effConc (limit nkeys ntasks : Nat) : Nat := max 1 (min limit (min nkeys ntasks))

def initBatch (items : List Item) (conc : Nat) : BatchState :=
  ⟨items, 0, false, List.replicate conc .idle, []⟩

inductive BAct where
  | runW (w : Nat) : BAct
  | resolve (w : Nat) (ok : Bool) : BAct
  | abort : BAct
deriving DecidableEq, Repr

def stepB (nkeys : Nat) (st : BatchState) (a : BAct) : BatchState :=
  match a with
  | .abort =>
    if st.aborted then st
    else { st with aborted := true, events := st.events ++ [.abortSet] }
  | .runW w =>
    match st.workers[w]? with
    | some .idle =>
      match st.queue with
      | [] => { st with workers := st.workers.set w .done }
      | it :: rest =>
        if st.aborted then { st with workers := st.workers.set w .done }
        else
          { st with queue := rest,
                    keyIndex := st.keyIndex + 1,
                    workers := st.workers.set w (.busy it (st.keyIndex % nkeys)),
                    events := st.events ++ [.deq w it, .call w it (st.keyIndex % nkeys)] }
    | _ => st
  | .resolve w ok =>
    match st.workers[w]? with
    | some (.busy it _) =>
      if ok then
        { st with workers := st.workers.set w .idle,
                  events := if st.aborted then st.events else st.events ++ [.emit w it] }
      else
        { st with workers := st.workers.set w (.failed it),
                  events := st.events ++ [.fail w it] }
    | _ => st

def runB (nkeys : Nat) (acts : List BAct) (st : BatchState) : BatchState :=
  acts.foldl (stepB nkeys) st

def isDeq : BEvent → Bool
  | .deq _ _ => true
  | _ => false

def isEmit : BEvent → Bool
  | .emit _ _ => true
  | _ => false

def isFail : BEvent → Bool
  | .fail _ _ => true
  | _ => false

def isBusy : WStatus → Bool
  | .busy _ _ => true
  | _ => false

def countBusy (st : BatchState) : Nat := st.workers.countP isBusy

def evItem : BEvent → Option Item
  | .deq _ it => some it
  | .call _ it _ => some it
  | .emit _ it => some it
  | .fail _ it => some it
  | .abortSet => none

/-- Claim C4 as stated, as a decidable trace predicate: some dequeue event
occurs after some failure event. -/
def anyDeqAfterFail : List BEvent → Bool
  | [] => false
  | e :: rest => (isFail e && rest.any isDeq) || anyDeqAfterFail rest

/-! ### Relationship-extraction tail (src/App.tsx lines 434-510) -/

/-- Lines 445-455: between its two stream stages, the per-file task rejects
with an `Error("Aborted")` whenever the signal is aborted. -/
def relTaskOutcome (file : Item) (aborted : Bool) : RoundOutcome :=
  if aborted then .fail file "Aborted" else .ok

/-- Lines 487-502: after the workflow returns, `!taskSuccess || aborted` sets
the application step to "error" and skips merging; otherwise the new triples
are appended and the step becomes "complete".  The pair is (step, triples). -/
def relFinal (taskSuccess aborted : Bool) (oldTriples newTriples : List String) :
    String × List String :=
  if !taskSuccess || aborted then ("error", oldTriples)
  else ("complete", oldTriples ++ newTriples)

/-- Claim C1: a rate-limited failure (message containing "429") at effective
concurrency above one removes the failed task from the remaining queue, pushes
it back at the end, lowers the concurrency to one, and leaves the loop running
(the batch restarts over the remaining queue, requeued task included); at
concurrency one it abandons the batch as failed, appending an error line that
names the aborted task and marking the task's status as a rate-limit error. -/
theorem C1_rate_limit_degradation (st : WFState) (it : Item) (msg : String)
    (hh : st.halted = false) (hr : st.remaining ≠ [])
    (h429 : strIncludes msg "429" = true) :
    (1 < st.conc →
      (wfStep st (.round (.fail it msg))).conc = 1 ∧
      (wfStep st (.round (.fail it msg))).remaining
        = st.remaining.filter (· ≠ it) ++ [it] ∧
      (wfStep st (.round (.fail it msg))).halted = false ∧
      (wfStep st (.round (.fail it msg))).success = st.success)
    ∧ (st.conc = 1 →
      (wfStep st (.round (.fail it msg))).halted = true ∧
      (wfStep st (.round (.fail it msg))).success = false ∧
      (wfStep st (.round (.fail it msg))).errLog
        = st.errLog ++ [rateStopMsg (failedName it)] ∧
      strIncludes (rateStopMsg (failedName it)) (failedName it) = true ∧
      (wfStep st (.round (.fail it msg))).stats
        = setStat st.stats (failedName it) ⟨"error", "Rate limited"⟩) := by
  constructor
  · intro hc
    have hc1 : ¬ st.conc = 1 := by omega
    simp [wfStep, hh, hr, h429, hc1]
  · intro hc
    refine ⟨?_, ?_, ?_, ?_, ?_⟩ <;>
      simp [wfStep, hh, hr, h429, hc, rateStopMsg]
    exact strIncludes_middle "Rate limit hit on file " (failedName it)
      ". Even sequential processing failed. Stopping."

theorem C1_rate_limit_degradation_witness :
    ((wfStep ⟨[⟨"a.pdf"⟩, ⟨"b.pdf"⟩], 2, [], [], true, false⟩
        (.round (.fail ⟨"b.pdf"⟩ "429 - Rate limit exceeded."))).conc = 1 ∧
      (wfStep ⟨[⟨"a.pdf"⟩, ⟨"b.pdf"⟩], 2, [], [], true, false⟩
        (.round (.fail ⟨"b.pdf"⟩ "429 - Rate limit exceeded."))).remaining
        = [⟨"a.pdf"⟩, ⟨"b.pdf"⟩].filter (· ≠ ⟨"b.pdf"⟩) ++ [⟨"b.pdf"⟩] ∧
      (wfStep ⟨[⟨"a.pdf"⟩, ⟨"b.pdf"⟩], 2, [], [], true, false⟩
        (.round (.fail ⟨"b.pdf"⟩ "429 - Rate limit exceeded."))).halted = false ∧
      (wfStep ⟨[⟨"a.pdf"⟩, ⟨"b.pdf"⟩], 2, [], [], true, false⟩
        (.round (.fail ⟨"b.pdf"⟩ "429 - Rate limit exceeded."))).success = true)
    ∧ ((wfStep ⟨[⟨"c.pdf"⟩], 1, [], [], true, false⟩
        (.round (.fail ⟨"c.pdf"⟩ "429 - Rate limit exceeded."))).halted = true ∧
      (wfStep ⟨[⟨"c.pdf"⟩], 1, [], [], true, false⟩
        (.round (.fail ⟨"c.pdf"⟩ "429 - Rate limit exceeded."))).success = false ∧
      (wfStep ⟨[⟨"c.pdf"⟩], 1, [], [], true, false⟩
        (.round (.fail ⟨"c.pdf"⟩ "429 - Rate limit exceeded."))).errLog
        = [] ++ [rateStopMsg (failedName ⟨"c.pdf"⟩)] ∧
      strIncludes (rateStopMsg (failedName ⟨"c.pdf"⟩)) (failedName ⟨"c.pdf"⟩) = true ∧
      (wfStep ⟨[⟨"c.pdf"⟩], 1, [], [], true, false⟩
        (.round (.fail ⟨"c.pdf"⟩ "429 - Rate limit exceeded."))).stats
        = setStat [] (failedName ⟨"c.pdf"⟩) ⟨"error", "Rate limited"⟩) :=
  ⟨(C1_rate_limit_degradation ⟨[⟨"a.pdf"⟩, ⟨"b.pdf"⟩], 2, [], [], true, false⟩
      ⟨"b.pdf"⟩ "429 - Rate limit exceeded." rfl (by decide) (by decide)).1 (by decide),
   (C1_rate_limit_degradation ⟨[⟨"c.pdf"⟩], 1, [], [], true, false⟩
      ⟨"c.pdf"⟩ "429 - Rate limit exceeded." rfl (by decide) (by decide)).2 rfl⟩

/-- Claim C7 (amended): a failure whose message signals no rate limit (neither
"429" nor, case-insensitively, "rate limit") halts the workflow immediately
with no further rounds (the remaining queue is left as it was and never
retried), records an error line carrying the failed task's name, and — when
the name is neither empty nor the literal "unknown" — marks the task's status
as an error carrying the message. -/
theorem C7_generic_failure_stops_batch (st : WFState) (it : Item) (msg : String)
    (hh : st.halted = false) (hr : st.remaining ≠ [])
    (h1 : strIncludes msg "429" = false)
    (h2 : strIncludes (strToLower msg) "rate limit" = false)
    (hn1 : it.name ≠ "") (hn2 : it.name ≠ "unknown") :
    (wfStep st (.round (.fail it msg))).halted = true ∧
    (wfStep st (.round (.fail it msg))).success = false ∧
    (wfStep st (.round (.fail it msg))).remaining = st.remaining ∧
    (wfStep st (.round (.fail it msg))).errLog
      = st.errLog ++ [genFailMsg it.name msg] ∧
    strIncludes (genFailMsg it.name msg) it.name = true ∧
    (wfStep st (.round (.fail it msg))).stats = setStat st.stats it.name ⟨"error", msg⟩ := by
  have hfn : failedName it = it.name := by
    rw [failedName, if_neg hn1]
  refine ⟨?_, ?_, ?_, ?_, ?_, ?_⟩ <;>
    simp [wfStep, hh, hr, h1, hfn, hn2, genFailMsg]
  have := strIncludes_middle "Processing failed on file " it.name (": " ++ msg)
  rw [← String.append_assoc] at this
  exact this

theorem C7_generic_failure_stops_batch_witness :
    (wfStep ⟨[⟨"a.pdf"⟩], 3, [], [("a.pdf", ⟨"queued", ""⟩)], true, false⟩
        (.round (.fail ⟨"a.pdf"⟩ "boom"))).halted = true ∧
    (wfStep ⟨[⟨"a.pdf"⟩], 3, [], [("a.pdf", ⟨"queued", ""⟩)], true, false⟩
        (.round (.fail ⟨"a.pdf"⟩ "boom"))).success = false ∧
    (wfStep ⟨[⟨"a.pdf"⟩], 3, [], [("a.pdf", ⟨"queued", ""⟩)], true, false⟩
        (.round (.fail ⟨"a.pdf"⟩ "boom"))).remaining = [⟨"a.pdf"⟩] ∧
    (wfStep ⟨[⟨"a.pdf"⟩], 3, [], [("a.pdf", ⟨"queued", ""⟩)], true, false⟩
        (.round (.fail ⟨"a.pdf"⟩ "boom"))).errLog = [] ++ [genFailMsg "a.pdf" "boom"] ∧
    strIncludes (genFailMsg "a.pdf" "boom") "a.pdf" = true ∧
    (wfStep ⟨[⟨"a.pdf"⟩], 3, [], [("a.pdf", ⟨"queued", ""⟩)], true, false⟩
        (.round (.fail ⟨"a.pdf"⟩ "boom"))).stats
      = setStat [("a.pdf", ⟨"queued", ""⟩)] "a.pdf" ⟨"error", "boom"⟩ :=
  C7_generic_failure_stops_batch ⟨[⟨"a.pdf"⟩], 3, [], [("a.pdf", ⟨"queued", ""⟩)], true, false⟩
    ⟨"a.pdf"⟩ "boom" rfl (by decide) (by decide) (by decide) (by decide) (by decide)

/-- Claim C7 counterexample: a file literally named "unknown" that fails with
a generic error is never marked failed — `failedItemName` equals "unknown",
so line 285's guard skips `updateFileStatus` and the file's status stays
"queued"; the batch still stops and reports. -/
theorem C7_counterexample :
    (wfStep ⟨[⟨"unknown"⟩], 3, [], [("unknown", ⟨"queued", ""⟩)], true, false⟩
        (.round (.fail ⟨"unknown"⟩ "boom"))).stats = [("unknown", ⟨"queued", ""⟩)] ∧
    (wfStep ⟨[⟨"unknown"⟩], 3, [], [("unknown", ⟨"queued", ""⟩)], true, false⟩
        (.round (.fail ⟨"unknown"⟩ "boom"))).success = false ∧
    (wfStep ⟨[⟨"unknown"⟩], 3, [], [("unknown", ⟨"queued", ""⟩)], true, false⟩
        (.round (.fail ⟨"unknown"⟩ "boom"))).halted = true := by
  refine ⟨?_, ?_, ?_⟩ <;> decide

/-- Claim C8 (amended): cancellation is surfaced as a failure by the
relationship-extraction flow — whenever the signal is aborted the final step
is "error" (the already-accumulated triples are left intact and new results
are not merged), and an abort that lands between a task's two stream stages
rejects with "Aborted", which the workflow classifies as a generic task error:
it halts, sets the success flag false, and appends an error line naming the
file. -/
theorem C8_cancellation_surfaced (ts : Bool) (oldT newT : List String)
    (st : WFState) (f : Item) (hh : st.halted = false) (hr : st.remaining ≠ []) :
    relFinal ts true oldT newT = ("error", oldT) ∧
    relTaskOutcome f true = .fail f "Aborted" ∧
    (wfStep st (.round (.fail f "Aborted"))).success = false ∧
    (wfStep st (.round (.fail f "Aborted"))).halted = true ∧
    (wfStep st (.round (.fail f "Aborted"))).errLog
      = st.errLog ++ [genFailMsg (failedName f) "Aborted"] := by
  have h429 : strIncludes "Aborted" "429" = false := by decide
  refine ⟨by simp [relFinal], rfl, ?_, ?_, ?_⟩ <;>
    simp [wfStep, hh, hr, h429]

theorem C8_cancellation_surfaced_witness :
    relFinal true true ["t"] [] = ("error", ["t"]) ∧
    relTaskOutcome ⟨"a.pdf"⟩ true = .fail ⟨"a.pdf"⟩ "Aborted" ∧
    (wfStep ⟨[⟨"a.pdf"⟩], 1, [], [], true, false⟩
        (.round (.fail ⟨"a.pdf"⟩ "Aborted"))).success = false ∧
    (wfStep ⟨[⟨"a.pdf"⟩], 1, [], [], true, false⟩
        (.round (.fail ⟨"a.pdf"⟩ "Aborted"))).halted = true ∧
    (wfStep ⟨[⟨"a.pdf"⟩], 1, [], [], true, false⟩
        (.round (.fail ⟨"a.pdf"⟩ "Aborted"))).errLog
      = [] ++ [genFailMsg (failedName ⟨"a.pdf"⟩) "Aborted"] :=
  C8_cancellation_surfaced true ["t"] [] ⟨[⟨"a.pdf"⟩], 1, [], [], true, false⟩
    ⟨"a.pdf"⟩ rfl (by decide)

/-- Claim C8 counterexample: a run in which every task succeeded but the
signal was aborted still ends in the "error" step; and an abort between the
two stream stages produces the error message naming the file — cancellation
is classified as a failure, contrary to the claim. -/
theorem C8_counterexample :
    relFinal true true ["t1"] [] = ("error", ["t1"]) ∧
    (wfStep ⟨[⟨"a.pdf"⟩], 1, [], [("a.pdf", ⟨"extractingRelationships", ""⟩)], true, false⟩
        (.round (.fail ⟨"a.pdf"⟩ "Aborted"))).success = false ∧
    (wfStep ⟨[⟨"a.pdf"⟩], 1, [], [("a.pdf", ⟨"extractingRelationships", ""⟩)], true, false⟩
        (.round (.fail ⟨"a.pdf"⟩ "Aborted"))).errLog
      = ["Processing failed on file a.pdf: Aborted"] := by
  refine ⟨rfl, ?_, ?_⟩ <;> decide

/-! ### Batch trace invariants -/

/-- After an abort event, the trace holds no dequeue and no emission. -/
def cleanAfterAbort : List BEvent → Prop
  | [] => True
  | e :: rest =>
    (e = .abortSet → ∀ e2 ∈ rest, isDeq e2 = false ∧ isEmit e2 = false) ∧
    cleanAfterAbort rest

theorem clean_of_not_mem {evs : List BEvent} (h : BEvent.abortSet ∉ evs) :
    cleanAfterAbort evs := by
  induction evs with
  | nil => trivial
  | cons e rest ih =>
    refine ⟨fun he => absurd (he ▸ List.mem_cons_self e rest) h, ?_⟩
    exact ih (fun hm => h (List.mem_cons_of_mem e hm))

theorem clean_append {evs es : List BEvent} (h1 : cleanAfterAbort evs)
    (h2 : ∀ e ∈ es, isDeq e = false ∧ isEmit e = false)
    (h3 : BEvent.abortSet ∉ es) : cleanAfterAbort (evs ++ es) := by
  induction evs with
  | nil => exact clean_of_not_mem h3
  | cons e rest ih =>
    refine ⟨?_, ih h1.2⟩
    intro he e2 hm
    rcases List.mem_append.mp hm with hm | hm
    · exact h1.1 he e2 hm
    · exact h2 e2 hm

theorem clean_append_abort {evs : List BEvent} (h : BEvent.abortSet ∉ evs) :
    cleanAfterAbort (evs ++ [BEvent.abortSet]) := by
  induction evs with
  | nil => exact ⟨fun _ e2 hm => absurd hm (List.not_mem_nil e2), trivial⟩
  | cons e rest ih =>
    refine ⟨?_, ih (fun hm => h (List.mem_cons_of_mem e hm))⟩
    intro he
    exact absurd (he ▸ List.mem_cons_self e rest) h

theorem clean_split {evs l1 l2 : List BEvent} (h : cleanAfterAbort evs)
    (hs : evs = l1 ++ BEvent.abortSet :: l2) :
    ∀ e ∈ l2, isDeq e = false ∧ isEmit e = false := by
  induction l1 generalizing evs with
  | nil =>
    subst hs
    exact h.1 rfl
  | cons x xs ih =>
    subst hs
    exact ih h.2 rfl

def Inv6 (st : BatchState) : Prop :=
  cleanAfterAbort st.events ∧ (st.aborted = false → BEvent.abortSet ∉ st.events)

theorem inv6_step (nkeys : Nat) (st : BatchState) (a : BAct) (h : Inv6 st) :
    Inv6 (stepB nkeys st a) := by
  obtain ⟨hc, hn⟩ := h
  rcases a with w | ⟨w, ok⟩ | _
  · rw [stepB]
    rcases hw : st.workers[w]? with _ | ws
    · exact ⟨hc, hn⟩
    · rcases ws with _ | ⟨it, k⟩ | _ | it
      · rcases hq : st.queue with _ | ⟨it, rest⟩
        · exact ⟨hc, hn⟩
        · rcases hab : st.aborted with _ | _
          · simp only [hab, Bool.false_eq_true, if_false]
            have hnm : BEvent.abortSet ∉
                st.events ++ [BEvent.deq w it, BEvent.call w it (st.keyIndex % nkeys)] := by
              intro hm
              rcases List.mem_append.mp hm with hm | hm
              · exact hn hab hm
              · simp at hm
            exact ⟨clean_of_not_mem hnm, fun _ => hnm⟩
          · simp only [hab, if_true]
            exact ⟨hc, by simp [hab]⟩
      · exact ⟨hc, hn⟩
      · exact ⟨hc, hn⟩
      · exact ⟨hc, hn⟩
  · rw [stepB]
    rcases hw : st.workers[w]? with _ | ws
    · exact ⟨hc, hn⟩
    · rcases ws with _ | ⟨it, k⟩ | _ | it
      · exact ⟨hc, hn⟩
      · rcases ok with _ | _
        · simp only [Bool.false_eq_true, if_false]
          refine ⟨clean_append hc ?_ ?_, ?_⟩
          · intro e hm
            simp only [List.mem_singleton] at hm
            subst hm
            exact ⟨rfl, rfl⟩
          · intro hm
            simp at hm
          · intro ha hm
            rcases List.mem_append.mp hm with hm | hm
            · exact hn ha hm
            · simp at hm
        · simp only [if_true]
          rcases hab : st.aborted with _ | _
          · simp only [hab, Bool.false_eq_true, if_false]
            have hnm : BEvent.abortSet ∉ st.events ++ [BEvent.emit w it] := by
              intro hm
              rcases List.mem_append.mp hm with hm | hm
              · exact hn hab hm
              · simp at hm
            exact ⟨clean_of_not_mem hnm, fun _ => hnm⟩
          · simp only [hab, if_true]
            exact ⟨hc, by simp [hab]⟩
      · exact ⟨hc, hn⟩
      · exact ⟨hc, hn⟩
  · rw [stepB]
    rcases hab : st.aborted with _ | _
    · simp only [hab, Bool.false_eq_true, if_false]
      exact ⟨clean_append_abort (hn hab), by simp⟩
    · simp only [hab, if_true]
      exact ⟨hc, by simp [hab]⟩

theorem inv6_run (nkeys : Nat) (acts : List BAct) (st : BatchState) (h : Inv6 st) :
    Inv6 (runB nkeys acts st) := by
  induction acts generalizing st with
  | nil => exact h
  | cons a rest ih => exact ih (stepB nkeys st a) (inv6_step nkeys st a h)

/-- Claim C6: once the cancellation signal is set (the `abortSet` event), no
later event of the batch trace is a dequeue or an emission — the loop head
checks `signal.aborted` before every `queue.shift()`, and `onResult` is
invoked only when the signal is still clear when the call settles. -/
theorem C6_cancellation (items : List Item) (conc nkeys : Nat) (acts : List BAct)
    (l1 l2 : List BEvent) (e : BEvent)
    (hsplit : (runB nkeys acts (initBatch items conc)).events
      = l1 ++ BEvent.abortSet :: l2)
    (he : e ∈ l2) : isDeq e = false ∧ isEmit e = false := by
  have hinv : Inv6 (runB nkeys acts (initBatch items conc)) :=
    inv6_run nkeys acts (initBatch items conc) ⟨trivial, by simp [initBatch]⟩
  exact clean_split hinv.1 hsplit e he

theorem C6_cancellation_witness :
    isDeq (BEvent.fail 0 ⟨"a.pdf"⟩) = false ∧ isEmit (BEvent.fail 0 ⟨"a.pdf"⟩) = false :=
  C6_cancellation [⟨"a.pdf"⟩] 1 1 [.runW 0, .abort, .resolve 0 false]
    [BEvent.deq 0 ⟨"a.pdf"⟩, BEvent.call 0 ⟨"a.pdf"⟩ 0] [BEvent.fail 0 ⟨"a.pdf"⟩]
    (BEvent.fail 0 ⟨"a.pdf"⟩) (by decide) (by decide)

theorem stepB_workers_length (nkeys : Nat) (st : BatchState) (a : BAct) :
    (stepB nkeys st a).workers.length = st.workers.length := by
  rcases a with w | ⟨w, ok⟩ | _
  · rw [stepB]
    rcases st.workers[w]? with _ | ws
    · rfl
    · rcases ws with _ | ⟨it, k⟩ | _ | it
      · rcases st.queue with _ | ⟨it, rest⟩
        · simp
        · rcases st.aborted with _ | _ <;> simp
      · rfl
      · rfl
      · rfl
  · rw [stepB]
    rcases st.workers[w]? with _ | ws
    · rfl
    · rcases ws with _ | ⟨it, k⟩ | _ | it
      · rfl
      · rcases ok with _ | _ <;> simp
      · rfl
      · rfl
  · rw [stepB]
    rcases st.aborted with _ | _ <;> simp

theorem runB_workers_length (nkeys : Nat) (acts : List BAct) (st : BatchState) :
    (runB nkeys acts st).workers.length = st.workers.length := by
  induction acts generalizing st with
  | nil => rfl
  | cons a rest ih =>
    rw [runB, List.foldl_cons, ← runB, ih, stepB_workers_length]

/-- Claim C5: in a failure-free batch the number of simultaneously running
tasks (busy workers) never exceeds `min(configuredLimit, |credentials|,
|tasks|)`: line 256 sizes the pool to `max(1, min(...))`, which equals the
minimum when limit, credentials and tasks are all at least one, and each of
the pool's workers runs at most one task at a time. -/
theorem C5_concurrency_bound (items : List Item) (limit nkeys : Nat) (acts : List BAct)
    (h1 : 1 ≤ limit) (h2 : 1 ≤ nkeys) (h3 : 1 ≤ items.length)
    (hnf : ∀ w, BAct.resolve w false ∉ acts) :
    countBusy (runB nkeys acts (initBatch items (effConc limit nkeys items.length)))
      ≤ min limit (min nkeys items.length) := by
  have hle : countBusy (runB nkeys acts (initBatch items (effConc limit nkeys items.length)))
      ≤ (runB nkeys acts (initBatch items (effConc limit nkeys items.length))).workers.length :=
    List.countP_le_length _
  rw [runB_workers_length] at hle
  have hinit : (initBatch items (effConc limit nkeys items.length)).workers.length
      = effConc limit nkeys items.length := by
    simp [initBatch]
  rw [hinit] at hle
  have heff : effConc limit nkeys items.length = min limit (min nkeys items.length) := by
    rw [effConc]
    have : 1 ≤ min limit (min nkeys items.length) := by omega
    omega
  rw [← heff]
  exact hle

theorem C5_concurrency_bound_witness :
    countBusy (runB 2 [.runW 0, .runW 1, .resolve 0 true]
      (initBatch [⟨"a.pdf"⟩, ⟨"b.pdf"⟩, ⟨"c.pdf"⟩] (effConc 2 2 3))) ≤ min 2 (min 2 3) :=
  C5_concurrency_bound [⟨"a.pdf"⟩, ⟨"b.pdf"⟩, ⟨"c.pdf"⟩] 2 2
    [.runW 0, .runW 1, .resolve 0 true] (by omega) (by omega) (by decide)
    (by intro w; simp)

def failEvOf (w : Nat) : BEvent → Bool
  | .fail w2 _ => w2 == w
  | _ => false

def deqEvOf (w : Nat) : BEvent → Bool
  | .deq w2 _ => w2 == w
  | _ => false

/-- After worker `w`'s own failure event, `w` never dequeues again. -/
def noDeqAfterOwnFail (w : Nat) : List BEvent → Prop
  | [] => True
  | e :: rest =>
    (failEvOf w e = true → ∀ e2 ∈ rest, deqEvOf w e2 = false) ∧ noDeqAfterOwnFail w rest

theorem ndaof_of_no_fail {w : Nat} {es : List BEvent}
    (h : ∀ e ∈ es, failEvOf w e = false) : noDeqAfterOwnFail w es := by
  induction es with
  | nil => trivial
  | cons e rest ih =>
    refine ⟨fun hf => absurd hf (by simp [h e (List.mem_cons_self e rest)]), ?_⟩
    exact ih fun x hx => h x (List.mem_cons_of_mem e hx)

theorem ndaof_append {w : Nat} {evs es : List BEvent} (h1 : noDeqAfterOwnFail w evs)
    (h2 : noDeqAfterOwnFail w es)
    (h3 : (∃ e ∈ evs, failEvOf w e = true) → ∀ e2 ∈ es, deqEvOf w e2 = false) :
    noDeqAfterOwnFail w (evs ++ es) := by
  induction evs with
  | nil => exact h2
  | cons e rest ih =>
    refine ⟨?_, ih h1.2 ?_⟩
    · intro hf e2 hm
      rcases List.mem_append.mp hm with hm | hm
      · exact h1.1 hf e2 hm
      · exact h3 ⟨e, List.mem_cons_self e rest, hf⟩ e2 hm
    · intro ⟨x, hx, hfx⟩
      exact h3 ⟨x, List.mem_cons_of_mem e hx, hfx⟩

theorem ndaof_split {w : Nat} {evs l1 l2 : List BEvent} {e : BEvent}
    (h : noDeqAfterOwnFail w evs) (hs : evs = l1 ++ e :: l2) (hf : failEvOf w e = true) :
    ∀ e2 ∈ l2, deqEvOf w e2 = false := by
  induction l1 generalizing evs with
  | nil =>
    subst hs
    exact h.1 hf
  | cons x xs ih =>
    subst hs
    exact ih h.2 rfl

def Inv4 (w : Nat) (st : BatchState) : Prop :=
  noDeqAfterOwnFail w st.events ∧
  ((∃ e ∈ st.events, failEvOf w e = true) → ∃ it, st.workers[w]? = some (.failed it))

theorem inv4_wne {w : Nat} {st : BatchState} {w' : Nat} {x : WStatus}
    (hw : st.workers[w']? = some x) (hxf : ∀ it2, x ≠ WStatus.failed it2)
    (h2 : (∃ e ∈ st.events, failEvOf w e = true) →
      ∃ it2, st.workers[w]? = some (.failed it2))
    (hex : ∃ e ∈ st.events, failEvOf w e = true) : w' ≠ w := by
  intro he
  obtain ⟨it2, hit2⟩ := h2 hex
  rw [he, hit2] at hw
  exact hxf it2 (Option.some.inj hw).symm

theorem inv4_set_keep {w : Nat} {st : BatchState} {w' : Nat} {x y : WStatus}
    (hw : st.workers[w']? = some x) (hxf : ∀ it2, x ≠ WStatus.failed it2)
    (h2 : (∃ e ∈ st.events, failEvOf w e = true) →
      ∃ it2, st.workers[w]? = some (.failed it2))
    (hex : ∃ e ∈ st.events, failEvOf w e = true) :
    ∃ it2, (st.workers.set w' y)[w]? = some (.failed it2) := by
  obtain ⟨it2, hit2⟩ := h2 hex
  refine ⟨it2, ?_⟩
  rw [List.getElem?_set_ne (inv4_wne hw hxf h2 hex)]
  exact hit2

theorem inv4_step (nkeys : Nat) (w : Nat) (st : BatchState) (a : BAct)
    (h : Inv4 w st) : Inv4 w (stepB nkeys st a) := by
  obtain ⟨h1, h2⟩ := h
  have hidle : ∀ it2, WStatus.idle ≠ WStatus.failed it2 := fun _ h => WStatus.noConfusion h
  have hbusy : ∀ (it : Item) (k : Nat) (it2 : Item),
      WStatus.busy it k ≠ WStatus.failed it2 := fun _ _ _ h => WStatus.noConfusion h
  rcases a with w' | ⟨w', ok⟩ | _
  · rw [stepB]
    split
    · next hw =>
      split
      · next hq => exact ⟨h1, fun hex => inv4_set_keep hw hidle h2 hex⟩
      · next it rest hq =>
        split
        · next => exact ⟨h1, fun hex => inv4_set_keep hw hidle h2 hex⟩
        · next hnab =>
          constructor
          · refine ndaof_append h1 (ndaof_of_no_fail ?_) ?_
            · intro e hm
              simp only [List.mem_cons, List.not_mem_nil, or_false] at hm
              rcases hm with rfl | rfl <;> rfl
            · intro hex e2 hm
              have hne : w' ≠ w := inv4_wne hw hidle h2 hex
              simp only [List.mem_cons, List.not_mem_nil, or_false] at hm
              rcases hm with rfl | rfl
              · simp [deqEvOf, hne]
              · rfl
          · intro hex
            have hex2 : ∃ e ∈ st.events, failEvOf w e = true := by
              obtain ⟨e, he, hf⟩ := hex
              rcases List.mem_append.mp he with hm | hm
              · exact ⟨e, hm, hf⟩
              · simp only [List.mem_cons, List.not_mem_nil, or_false] at hm
                rcases hm with rfl | rfl <;> exact absurd hf (by simp [failEvOf])
            exact inv4_set_keep hw hidle h2 hex2
    · next => exact ⟨h1, h2⟩
  · rw [stepB]
    split
    · next it k hw =>
      rcases ok with _ | _
      · simp only [Bool.false_eq_true, if_false]
        constructor
        · refine ndaof_append h1
            ⟨fun _ e2 hm => absurd hm (List.not_mem_nil e2), trivial⟩ ?_
          intro _ e2 hm
          simp only [List.mem_singleton] at hm
          subst hm
          rfl
        · intro hex
          by_cases hew : w' = w
          · subst hew
            refine ⟨it, ?_⟩
            have hlt : w' < st.workers.length := (List.getElem?_eq_some.mp hw).1
            rw [List.getElem?_set_self]
            simp [hlt]
          · have hex2 : ∃ e ∈ st.events, failEvOf w e = true := by
              obtain ⟨e, he, hf⟩ := hex
              rcases List.mem_append.mp he with hm | hm
              · exact ⟨e, hm, hf⟩
              · simp only [List.mem_singleton] at hm
                subst hm
                exact absurd hf (by simp [failEvOf, hew])
            exact inv4_set_keep hw (hbusy it k) h2 hex2
      · simp only [if_true]
        constructor
        · rcases hab : st.aborted with _ | _
          · simp only [hab, Bool.false_eq_true, if_false]
            refine ndaof_append h1 (ndaof_of_no_fail ?_) ?_
            · intro e hm
              simp only [List.mem_singleton] at hm
              subst hm
              rfl
            · intro _ e2 hm
              simp only [List.mem_singleton] at hm
              subst hm
              rfl
          · simp only [hab, if_true]
            exact h1
        · intro hex
          have hex2 : ∃ e ∈ st.events, failEvOf w e = true := by
            obtain ⟨e, he, hf⟩ := hex
            rcases hab : st.aborted with _ | _ <;> rw [hab] at he
            · simp only [Bool.false_eq_true, if_false] at he
              rcases List.mem_append.mp he with hm | hm
              · exact ⟨e, hm, hf⟩
              · simp only [List.mem_singleton] at hm
                subst hm
                exact absurd hf (by simp [failEvOf])
            · simp only [if_true] at he
              exact ⟨e, he, hf⟩
          exact inv4_set_keep hw (hbusy it k) h2 hex2
    · next => exact ⟨h1, h2⟩
  · rw [stepB]
    split
    · next => exact ⟨h1, h2⟩
    · next =>
      constructor
      · refine ndaof_append h1
          ⟨fun hf => absurd hf (by simp [failEvOf]), trivial⟩ ?_
        intro _ e2 hm
        simp only [List.mem_singleton] at hm
        subst hm
        rfl
      · intro hex
        obtain ⟨e, he, hf⟩ := hex
        rcases List.mem_append.mp he with hm | hm
        · exact h2 ⟨e, hm, hf⟩
        · simp only [List.mem_singleton] at hm
          subst hm
          exact absurd hf (by simp [failEvOf])

theorem inv4_run (nkeys : Nat) (w : Nat) (acts : List BAct) (st : BatchState)
    (h : Inv4 w st) : Inv4 w (runB nkeys acts st) := by
  induction acts generalizing st with
  | nil => exact h
  | cons a rest ih => exact ih (stepB nkeys st a) (inv4_step nkeys w st a h)

/-- Claim C4 (amended): only the worker that observed the failure stops
consuming — after a `fail` event of worker `w`, no later event of the trace is
a dequeue by `w` (the rethrow ends that worker's loop); the remaining workers
are not stopped and may keep dequeuing (see the counterexample). -/
theorem C4_only_failing_worker_stops (items : List Item) (conc nkeys : Nat)
    (acts : List BAct) (w : Nat) (it : Item) (l1 l2 : List BEvent) (e : BEvent)
    (hsplit : (runB nkeys acts (initBatch items conc)).events
      = l1 ++ BEvent.fail w it :: l2)
    (he : e ∈ l2) : deqEvOf w e = false := by
  have hinv : Inv4 w (runB nkeys acts (initBatch items conc)) :=
    inv4_run nkeys w acts (initBatch items conc)
      ⟨trivial, by simp [initBatch]⟩
  exact ndaof_split hinv.1 hsplit (by simp [failEvOf]) e he

theorem C4_only_failing_worker_stops_witness :
    deqEvOf 0 (BEvent.deq 1 ⟨"c.pdf"⟩) = false :=
  C4_only_failing_worker_stops [⟨"a.pdf"⟩, ⟨"b.pdf"⟩, ⟨"c.pdf"⟩] 2 1
    [.runW 0, .runW 1, .resolve 0 false, .resolve 1 true, .runW 1]
    0 ⟨"a.pdf"⟩
    [BEvent.deq 0 ⟨"a.pdf"⟩, BEvent.call 0 ⟨"a.pdf"⟩ 0,
      BEvent.deq 1 ⟨"b.pdf"⟩, BEvent.call 1 ⟨"b.pdf"⟩ 0]
    [BEvent.emit 1 ⟨"b.pdf"⟩, BEvent.deq 1 ⟨"c.pdf"⟩, BEvent.call 1 ⟨"c.pdf"⟩ 0]
    (BEvent.deq 1 ⟨"c.pdf"⟩) (by decide) (by decide)

/-- Claim C4 counterexample: after worker 0's task fails, worker 1 (whose task
was in flight) resolves, emits, and dequeues the third task — a new task is
dequeued from the shared queue after a failure has been observed, because
nothing in `processBatch` stops the other workers. -/
theorem C4_counterexample :
    (runB 1 [.runW 0, .runW 1, .resolve 0 false, .resolve 1 true, .runW 1]
        (initBatch [⟨"a.pdf"⟩, ⟨"b.pdf"⟩, ⟨"c.pdf"⟩] 2)).events
      = [BEvent.deq 0 ⟨"a.pdf"⟩, BEvent.call 0 ⟨"a.pdf"⟩ 0,
         BEvent.deq 1 ⟨"b.pdf"⟩, BEvent.call 1 ⟨"b.pdf"⟩ 0,
         BEvent.fail 0 ⟨"a.pdf"⟩,
         BEvent.emit 1 ⟨"b.pdf"⟩, BEvent.deq 1 ⟨"c.pdf"⟩, BEvent.call 1 ⟨"c.pdf"⟩ 0] ∧
    anyDeqAfterFail
      (runB 1 [.runW 0, .runW 1, .resolve 0 false, .resolve 1 true, .runW 1]
        (initBatch [⟨"a.pdf"⟩, ⟨"b.pdf"⟩, ⟨"c.pdf"⟩] 2)).events = true := by
  refine ⟨?_, ?_⟩ <;> decide

/-! ### Trace events mention only the batch's own items -/

def ItemsBound (items : List Item) (st : BatchState) : Prop :=
  (∀ e ∈ st.events, ∀ it, evItem e = some it → it ∈ items) ∧
  (∀ it ∈ st.queue, it ∈ items) ∧
  (∀ (w : Nat) (it : Item) (k : Nat),
    st.workers[w]? = some (WStatus.busy it k) → it ∈ items) ∧
  (∀ (w : Nat) (it : Item), st.workers[w]? = some (WStatus.failed it) → it ∈ items)

theorem set_bound_busy {items : List Item} {st : BatchState} {w' : Nat} {y : WStatus}
    (h3 : ∀ (w : Nat) (it : Item) (k : Nat),
      st.workers[w]? = some (WStatus.busy it k) → it ∈ items)
    (hy : ∀ it k, y = WStatus.busy it k → it ∈ items) :
    ∀ (w : Nat) (it : Item) (k : Nat),
      (st.workers.set w' y)[w]? = some (WStatus.busy it k) → it ∈ items := by
  intro w it k hwk
  rw [List.getElem?_set] at hwk
  split at hwk
  · split at hwk
    · exact hy it k (Option.some.inj hwk)
    · exact Option.noConfusion hwk
  · exact h3 w it k hwk

theorem set_bound_failed {items : List Item} {st : BatchState} {w' : Nat} {y : WStatus}
    (h4 : ∀ (w : Nat) (it : Item),
      st.workers[w]? = some (WStatus.failed it) → it ∈ items)
    (hy : ∀ it, y = WStatus.failed it → it ∈ items) :
    ∀ (w : Nat) (it : Item),
      (st.workers.set w' y)[w]? = some (WStatus.failed it) → it ∈ items := by
  intro w it hwk
  rw [List.getElem?_set] at hwk
  split at hwk
  · split at hwk
    · exact hy it (Option.some.inj hwk)
    · exact Option.noConfusion hwk
  · exact h4 w it hwk

theorem itemsBound_step (items : List Item) (nkeys : Nat) (st : BatchState) (a : BAct)
    (h : ItemsBound items st) : ItemsBound items (stepB nkeys st a) := by
  obtain ⟨h1, h2, h3, h4⟩ := h
  have hdone_b : ∀ it2 k2, WStatus.done = WStatus.busy it2 k2 → it2 ∈ items :=
    fun _ _ h => WStatus.noConfusion h
  have hdone_f : ∀ it2, WStatus.done = WStatus.failed it2 → it2 ∈ items :=
    fun _ h => WStatus.noConfusion h
  have hidle_b : ∀ it2 k2, WStatus.idle = WStatus.busy it2 k2 → it2 ∈ items :=
    fun _ _ h => WStatus.noConfusion h
  have hidle_f : ∀ it2, WStatus.idle = WStatus.failed it2 → it2 ∈ items :=
    fun _ h => WStatus.noConfusion h
  rcases a with w' | ⟨w', ok⟩ | _
  · rw [stepB]
    split
    · next hw =>
      split
      · next hq =>
        exact ⟨h1, h2, set_bound_busy h3 hdone_b, set_bound_failed h4 hdone_f⟩
      · next it rest hq =>
        split
        · next =>
          exact ⟨h1, h2, set_bound_busy h3 hdone_b, set_bound_failed h4 hdone_f⟩
        · next =>
          have hmem : it ∈ items := h2 it (by rw [hq]; exact List.mem_cons_self it rest)
          refine ⟨?_, ?_, ?_, ?_⟩
          · intro e he it2 hev
            rcases List.mem_append.mp he with hm | hm
            · exact h1 e hm it2 hev
            · simp only [List.mem_cons, List.not_mem_nil, or_false] at hm
              rcases hm with rfl | rfl <;>
                (rw [evItem] at hev; injection hev with hv; rw [← hv]; exact hmem)
          · intro it2 hit2
            exact h2 it2 (by rw [hq]; exact List.mem_cons_of_mem it hit2)
          · refine set_bound_busy h3 ?_
            intro it2 k2 hb
            injection hb with hb1 hb2
            rw [← hb1]
            exact hmem
          · refine set_bound_failed h4 ?_
            intro it2 hb
            exact WStatus.noConfusion hb
    · next => exact ⟨h1, h2, h3, h4⟩
  · rw [stepB]
    split
    · next it k hw =>
      have hmem : it ∈ items := h3 w' it k hw
      rcases ok with _ | _
      · simp only [Bool.false_eq_true, if_false]
        refine ⟨?_, h2, set_bound_busy h3 ?_, set_bound_failed h4 ?_⟩
        · intro e he it2 hev
          rcases List.mem_append.mp he with hm | hm
          · exact h1 e hm it2 hev
          · simp only [List.mem_singleton] at hm
            subst hm
            rw [evItem] at hev
            injection hev with hv
            rw [← hv]
            exact hmem
        · intro it2 k2 hb
          exact WStatus.noConfusion hb
        · intro it2 hb
          injection hb with hb1
          rw [← hb1]
          exact hmem
      · simp only [if_true]
        refine ⟨?_, h2, set_bound_busy h3 hidle_b, set_bound_failed h4 hidle_f⟩
        intro e he it2 hev
        rcases hab : st.aborted with _ | _ <;> rw [hab] at he
        · simp only [Bool.false_eq_true, if_false] at he
          rcases List.mem_append.mp he with hm | hm
          · exact h1 e hm it2 hev
          · simp only [List.mem_singleton] at hm
            subst hm
            rw [evItem] at hev
            injection hev with hv
            rw [← hv]
            exact hmem
        · simp only [if_true] at he
          exact h1 e he it2 hev
    · next => exact ⟨h1, h2, h3, h4⟩
  · rw [stepB]
    split
    · next => exact ⟨h1, h2, h3, h4⟩
    · next =>
      refine ⟨?_, h2, h3, h4⟩
      intro e he it2 hev
      rcases List.mem_append.mp he with hm | hm
      · exact h1 e hm it2 hev
      · simp only [List.mem_singleton] at hm
        subst hm
        rw [evItem] at hev
        exact Option.noConfusion hev

theorem itemsBound_run (items : List Item) (nkeys : Nat) (acts : List BAct)
    (st : BatchState) (h : ItemsBound items st) : ItemsBound items (runB nkeys acts st) := by
  induction acts generalizing st with
  | nil => exact h
  | cons a rest ih => exact ih (stepB nkeys st a) (itemsBound_step items nkeys st a h)

theorem emit_mem_items (items : List Item) (conc nkeys : Nat) (acts : List BAct)
    (w : Nat) (j : Item)
    (h : BEvent.emit w j ∈ (runB nkeys acts (initBatch items conc)).events) :
    j ∈ items := by
  have hb : ItemsBound items (runB nkeys acts (initBatch items conc)) := by
    refine itemsBound_run items nkeys acts (initBatch items conc) ⟨?_, ?_, ?_, ?_⟩
    · intro e he
      simp [initBatch] at he
    · intro it hit
      simpa [initBatch] using hit
    · intro w2 it k hwk
      simp only [initBatch, List.getElem?_replicate] at hwk
      split at hwk
      · exact WStatus.noConfusion (Option.some.inj hwk)
      · exact Option.noConfusion hwk
    · intro w2 it hwk
      simp only [initBatch, List.getElem?_replicate] at hwk
      split at hwk
      · exact WStatus.noConfusion (Option.some.inj hwk)
      · exact Option.noConfusion hwk
  exact hb.1 (BEvent.emit w j) h j rfl

def emitOf (it : Item) : BEvent → Bool
  | .emit _ j => j == it
  | _ => false

def callOf (it : Item) : BEvent → Bool
  | .call _ j _ => j == it
  | _ => false

/-- Number of result-callback invocations for one item in a trace. -/
def countEmits (it : Item) (evs : List BEvent) : Nat := evs.countP (emitOf it)

/-- Number of worker-function invocations for one item in a trace. -/
def countCalls (it : Item) (evs : List BEvent) : Nat := evs.countP (callOf it)

def c10acts1 : List BAct := [.runW 0, .runW 1, .resolve 0 true, .runW 0, .resolve 1 false]

def c10acts2 : List BAct := [.runW 0, .resolve 0 true, .runW 0, .resolve 0 true, .runW 0]

def c10wf0 : WFState := ⟨[⟨"a.pdf"⟩, ⟨"b.pdf"⟩], 2, [], [], true, false⟩

def c10wf1 : WFState := wfStep c10wf0 (.round (.fail ⟨"b.pdf"⟩ "429 - Rate limit exceeded."))

/-- Trace of a whole degraded batch: the aborted parallel round followed by the
restarted sequential round over the requeued remaining list. -/
def c10trace : List BEvent :=
  (runB 2 c10acts1 (initBatch c10wf0.remaining c10wf0.conc)).events ++
    (runB 2 c10acts2 (initBatch c10wf1.remaining c10wf1.conc)).events

/-- Claim C10: after a rate-limited round at concurrency above one, every item
of the remaining list other than the failed one is passed to the restarted
round — including items whose result was already emitted in the aborted round
(the remaining list is only emptied on a fully successful round, never shrunk
per task); consequently, in the concrete two-round batch, the worker function
and the result callback each run twice for the already-succeeded item. -/
theorem C10_requeue_includes_succeeded :
    (∀ (st : WFState) (it j : Item) (msg : String) (nkeys : Nat)
        (acts : List BAct) (w : Nat),
      st.halted = false → st.remaining ≠ [] → strIncludes msg "429" = true →
      st.conc ≠ 1 →
      BEvent.emit w j ∈ (runB nkeys acts (initBatch st.remaining st.conc)).events →
      j ≠ it →
      j ∈ (wfStep st (.round (.fail it msg))).remaining)
    ∧ (c10wf1.remaining = [⟨"a.pdf"⟩, ⟨"b.pdf"⟩] ∧ c10wf1.conc = 1 ∧
       countEmits ⟨"a.pdf"⟩ c10trace = 2 ∧ countCalls ⟨"a.pdf"⟩ c10trace = 2) := by
  constructor
  · intro st it j msg nkeys acts w hh hr h429 hc1 hemit hne
    have hj : j ∈ st.remaining := emit_mem_items st.remaining st.conc nkeys acts w j hemit
    have hrem : (wfStep st (.round (.fail it msg))).remaining
        = st.remaining.filter (· ≠ it) ++ [it] := by
      simp [wfStep, hh, hr, h429, hc1]
    rw [hrem]
    refine List.mem_append_left _ (List.mem_filter.mpr ⟨hj, ?_⟩)
    simp [hne]
  · refine ⟨by decide, by decide, by decide, by decide⟩

theorem C10_requeue_includes_succeeded_witness :
    (⟨"a.pdf"⟩ : Item) ∈ (wfStep c10wf0
      (.round (.fail ⟨"b.pdf"⟩ "429 - Rate limit exceeded."))).remaining :=
  C10_requeue_includes_succeeded.1 c10wf0 ⟨"b.pdf"⟩ ⟨"a.pdf"⟩
    "429 - Rate limit exceeded." 2 c10acts1 0 rfl (by decide) (by decide)
    (by decide) (by decide) (by decide)
